import Mathlib

/-!
Shallow embedding of the nxfuse projection engine (src/src/nx_filesystem.rs):
an NX archive tree is projected onto the four virtual-filesystem operations
lookup / getattr / readdir / read.  Archive nodes are modelled from the
spec's description of the external archive reader; all engine code
(inode registry, attribute cache, content materializer, the four protocol
operations) is translated from the Rust source.  Bytes are modelled as
natural numbers below 256; the process-terminating panics of the source
are modelled by the `Reply.fatal` constructor.
-/

namespace NxFuse

/-- Value kinds of an archive node, mirroring `nx::Type`. -/
inductive NType where
  | empty
  | integer
  | float
  | string
  | vector
  | bitmap
  | audio
deriving DecidableEq, Repr

/-- Typed payload of an archive node, modelled from the spec's description of
the external archive reader (`nx` crate): integer payloads are `i64` values,
vector components `i32` values, string payloads arbitrary text, bitmap
payloads a decoded pixel buffer with its width and height, audio payloads raw
bytes.  The `f64` payload of a float node is abstracted by its decimal text
rendering (the engine only ever observes the rendering), since IEEE-754
floats live entirely at the external reader boundary. -/
inductive NodeData where
  | empty
  | integer (i : Int)
  | float (repr : String)
  | str (s : String)
  | vector (x y : Int)
  | bitmap (width height : Nat) (buf : List Nat)
  | audio (buf : List Nat)
deriving DecidableEq, Repr

/-- An archive node: a name, a typed payload, and ordered children, modelled
from the spec's description of the external archive reader.  Equality is
structural, matching the reader's node identity. -/
inductive Node where
  | mk (name : String) (data : NodeData) (children : List Node)

mutual

/-- Structural equality test on archive nodes. -/
def Node.beq : Node → Node → Bool
  | .mk n1 d1 c1, .mk n2 d2 c2 => n1 == n2 && d1 == d2 && Node.beqList c1 c2

/-- Structural equality test on lists of archive nodes. -/
def Node.beqList : List Node → List Node → Bool
  | [], [] => true
  | a :: as, b :: bs => Node.beq a b && Node.beqList as bs
  | _, _ => false

end

theorem Node.beq_iff : ∀ (a b : Node), Node.beq a b = true ↔ a = b := by
  have H : ∀ a : Node, ∀ b, Node.beq a b = true ↔ a = b := by
    intro a
    refine @Node.rec (fun a => ∀ b, Node.beq a b = true ↔ a = b)
      (fun l => ∀ m, Node.beqList l m = true ↔ l = m) ?_ ?_ ?_ a
    · intro name data children ih b
      cases b with
      | mk n2 d2 c2 =>
        simp only [Node.beq, Bool.and_eq_true, beq_iff_eq, ih c2, Node.mk.injEq]
        tauto
    · intro m
      cases m <;> simp [Node.beqList]
    · intro head tail ih1 ih2 m
      cases m with
      | nil => simp [Node.beqList]
      | cons h2 t2 => simp [Node.beqList, ih1, ih2]
  exact H

instance : DecidableEq Node :=
  fun a b => decidable_of_iff _ (Node.beq_iff a b)

/-- Source `nx::Node::name`. -/
def Node.name : Node → String
  | .mk n _ _ => n

/-- The typed payload of a node. -/
def Node.data : Node → NodeData
  | .mk _ d _ => d

/-- Source `nx::Node::iter`: the ordered children of a node. -/
def Node.children : Node → List Node
  | .mk _ _ c => c

/-- Source `nx::Node::dtype`. -/
def Node.dtype (n : Node) : NType :=
  match n.data with
  | .empty => .empty
  | .integer _ => .integer
  | .float _ => .float
  | .str _ => .string
  | .vector _ _ => .vector
  | .bitmap _ _ _ => .bitmap
  | .audio _ => .audio

/-- Source `nx::Node::get`: child lookup by exact name. -/
def Node.get (n : Node) (s : String) : Option Node :=
  n.children.find? (fun c => c.name == s)

/-- Function `node_has_children` from the source: `node.iter().count() > 0`. -/
def node_has_children (n : Node) : Bool :=
  n.children.length != 0

/-- UTF-8 encoding of a single character (given as its code point). -/
def charUtf8 (c : Nat) : List Nat :=
  if c < 0x80 then [c]
  else if c < 0x800 then [0xC0 + c / 64, 0x80 + c % 64]
  else if c < 0x10000 then
    [0xE0 + c / 4096, 0x80 + (c / 64) % 64, 0x80 + c % 64]
  else
    [0xF0 + c / 262144, 0x80 + (c / 4096) % 64, 0x80 + (c / 64) % 64, 0x80 + c % 64]

/-- UTF-8 bytes of a string (Rust `str::as_bytes`). -/
def utf8Bytes (s : String) : List Nat :=
  s.toList.flatMap (fun c => charUtf8 c.toNat)

/-- Source `write_u16::<LittleEndian>`: two little-endian bytes of a 16-bit value. -/
def le16 (n : Nat) : List Nat :=
  [n % 256, n / 256 % 256]

/-- Source `write_u32::<LittleEndian>`: four little-endian bytes of a 32-bit value. -/
def le32 (n : Nat) : List Nat :=
  [n % 256, n / 256 % 256, n / 65536 % 256, n / 16777216 % 256]

/-- Source `write_u32::<BigEndian>`: four big-endian bytes of a 32-bit value. -/
def be32 (n : Nat) : List Nat :=
  [n / 16777216 % 256, n / 65536 % 256, n / 256 % 256, n % 256]

/-- Source `write_i32::<LittleEndian>`: the two's-complement little-endian bytes of a
signed 32-bit value. -/
def leI32 (i : Int) : List Nat :=
  le32 (i % 4294967296).toNat

/-- Rust `as i32` on a natural number: reinterpret the low 32 bits as a
signed value. -/
def i32ofNat (n : Nat) : Int :=
  if n % 4294967296 < 2147483648 then (n % 4294967296 : Nat)
  else (n % 4294967296 : Nat) - 4294967296

/-- The BMP container assembled by the `nx::Type::Bitmap` arm of
`with_node_data`: a BITMAPV4-style header (108-byte DIB, BI_BITFIELDS masks
selecting the BGRA byte order of the decoded buffer, negative height for a
top-to-bottom row order) followed by the decoded pixel buffer. -/
def bmpData (width height : Nat) (buf : List Nat) : List Nat :=
  let len := buf.length
  let header_size := 108
  let offset := 2 + 3 * 4 + header_size
  let size_bytes := offset + len
  [0x42, 0x4D] ++ (le32 size_bytes ++
  (le32 0 ++
  (le32 offset ++
  (le32 header_size ++
  (leI32 (i32ofNat width) ++
  (leI32 (-(i32ofNat height)) ++
  (le16 1 ++
  (le16 32 ++
  (le32 3 ++
  (le32 len ++
  (leI32 2835 ++
  (leI32 2835 ++
  (leI32 0 ++
  (leI32 0 ++
  (be32 0x0000FF00 ++
  (be32 0x00FF0000 ++
  (be32 0xFF000000 ++
  (be32 0x000000FF ++
  ([0x20, 0x6E, 0x69, 0x57] ++
  (List.replicate (0x24 + 3 * 4) 0 ++
  buf))))))))))))))))))))

/-- Function `with_node_data` from the source: materialize a node's content bytes and
hand them to a continuation.  Each arm mirrors one `nx::Type` arm of the Rust
function. -/
def with_node_data {R : Type} (node : Node) (func : List Nat → R) : R :=
  match node.data with
  | .empty => func []
  | .integer i => func (utf8Bytes (toString i))
  | .float r => func (utf8Bytes r)
  | .str s => func (utf8Bytes s)
  | .vector x y => func (utf8Bytes ( "(" ++ toString x ++ ", " ++ toString y ++ ")"))
  | .bitmap w h buf => func (bmpData w h buf)
  | .audio buf => func buf

/-- The materialized content of a node (the bytes every continuation passed
to `with_node_data` receives). -/
def nodeContent (node : Node) : List Nat :=
  with_node_data node id

/-- Type `fuse::FileType`, restricted to the two kinds the engine produces. -/
inductive FileType where
  | regularFile
  | directory
deriving DecidableEq, Repr

/-- Function `node_file_type` from the source. -/
def node_file_type (node : Node) : FileType :=
  if node_has_children node then .directory else .regularFile

/-- Type `fuse::FileAttr`.  Timestamps are modelled as a single abstract clock
value (all four fields of the source receive the same `create_time`). -/
structure FileAttr where
  ino : Nat
  size : Nat
  blocks : Nat
  atime : Nat
  mtime : Nat
  ctime : Nat
  crtime : Nat
  kind : FileType
  perm : Nat
  nlink : Nat
  uid : Nat
  gid : Nat
  rdev : Nat
  flags : Nat
deriving DecidableEq, Repr

/-- Inodes of an `nx::Node` (struct `NodeInodes` of the source). -/
structure NodeInodes where
  main : Nat
  opt_data : Option Nat
deriving DecidableEq, Repr

/-- File attributes of an `nx::Node` (struct `NodeFileAttrs` of the source). -/
structure NodeFileAttrs where
  main : FileAttr
  opt_data : Option FileAttr
deriving DecidableEq, Repr

/-- An entry of the registry (struct `Entry` of the source). -/
structure Entry where
  inodes : NodeInodes
  nxnode : Node
deriving DecidableEq

/-- Constant `FUSE_ROOT_ID`. -/
def FUSE_ROOT_ID : Nat := 1

/-- Constant `libc::ENOENT`. -/
def ENOENT : Nat := 2

/-- The outcome of a protocol operation: a successful reply, an errno reply,
or a process-terminating panic of the source. -/
inductive Reply (α : Type) where
  | ok (a : α)
  | err (errno : Nat)
  | fatal (msg : String)
deriving DecidableEq, Repr

/-- The engine state (struct `NxFilesystem` of the source).  The borrowed
`nx_file` is represented by its root node; the `HashMap` of attributes is
modelled as an association list whose keys are unique. -/
structure NxFilesystem where
  nx_root : Node
  entries : List Entry
  inode_counter : Nat
  create_time : Nat
  inode_attrs : List (Nat × FileAttr)

/-- Source `Entries::nxnode`: the nx node belonging to an inode. -/
def entriesNxnode (es : List Entry) (inode : Nat) : Option Node :=
  match es.find? (fun entry =>
      entry.inodes.main == inode ||
      match entry.inodes.opt_data with
      | some ino => inode == ino
      | none => false) with
  | some entry => some entry.nxnode
  | none => none

/-- Source `Entries::inodes`: the inodes registered for a node. -/
def entriesInodes (es : List Entry) (node : Node) : Option NodeInodes :=
  match es.find? (fun entry => entry.nxnode == node) with
  | some entry => some entry.inodes
  | none => none

/-- Lookup in the attribute cache (`HashMap::get` / the `entry` API probe). -/
def assocFind (l : List (Nat × FileAttr)) (k : Nat) : Option FileAttr :=
  match l with
  | [] => none
  | (k2, a) :: rest => if k2 = k then some a else assocFind rest k

/-- The root attribute record inserted by `new_with_nx_file`. -/
def rootAttr (now : Nat) : FileAttr :=
  { ino := FUSE_ROOT_ID, size := 0, blocks := 1,
    atime := now, mtime := now, ctime := now, crtime := now,
    kind := .directory, perm := 0o644, nlink := 1,
    uid := 501, gid := 20, rdev := 0, flags := 0 }

/-- The registry entry for the root node seeded by `new_with_nx_file`. -/
def rootEntry (root : Node) : Entry :=
  { nxnode := root, inodes := { main := FUSE_ROOT_ID, opt_data := none } }

/-- Source `NxFilesystem::new_with_nx_file`: construct the engine state, seeding the
root entry and the root attribute record.  `now` models `time::get_time()`. -/
def new_with_nx_file (root : Node) (now : Nat) : NxFilesystem :=
  { nx_root := root,
    entries := [rootEntry root],
    inode_counter := FUSE_ROOT_ID + 1,
    create_time := now,
    inode_attrs := [(FUSE_ROOT_ID, rootAttr now)] }

/-- Source `NxFilesystem::new_inode`: return the counter and bump it. -/
def new_inode (fs : NxFilesystem) : Nat × NxFilesystem :=
  (fs.inode_counter, { fs with inode_counter := fs.inode_counter + 1 })

/-- Source `NxFilesystem::node_inodes`: get the inodes for a node, generating and
registering them if not present. -/
def node_inodes (fs : NxFilesystem) (node : Node) : NodeInodes × NxFilesystem :=
  match entriesInodes fs.entries node with
  | some inodes => (inodes, fs)
  | none =>
    let (main_inode, fs1) := new_inode fs
    let (opt_data_inode, fs2) :=
      if node_has_children node && (node.dtype != NType.empty) then
        let (i, fs2) := new_inode fs1
        (some i, fs2)
      else
        (none, fs1)
    let inodes : NodeInodes := { main := main_inode, opt_data := opt_data_inode }
    (inodes, { fs2 with entries := fs2.entries ++ [{ nxnode := node, inodes := inodes }] })

/-- Source `NxFilesystem::node_file_attrs`: get (computing and caching on first use)
the attribute records for a node. -/
def node_file_attrs (fs : NxFilesystem) (node : Node) : NodeFileAttrs × NxFilesystem :=
  let (inodes, fs1) := node_inodes fs node
  let (size, main_attr, attrs1) :=
    match assocFind fs1.inode_attrs inodes.main with
    | some a => ((none : Option Nat), a, fs1.inode_attrs)
    | none =>
      let s := with_node_data node List.length
      let a : FileAttr :=
        { ino := inodes.main, size := s, blocks := 1,
          atime := fs1.create_time, mtime := fs1.create_time,
          ctime := fs1.create_time, crtime := fs1.create_time,
          kind := node_file_type node, perm := 0o644, nlink := 1,
          uid := 501, gid := 20, rdev := 0, flags := 0 }
      (some s, a, (inodes.main, a) :: fs1.inode_attrs)
  let (opt_data_attr, attrs2) :=
    match inodes.opt_data with
    | none => ((none : Option FileAttr), attrs1)
    | some inode =>
      match assocFind attrs1 inode with
      | some a => (some a, attrs1)
      | none =>
        let s :=
          match size with
          | some s => s
          | none => with_node_data node List.length
        let a : FileAttr :=
          { ino := inode, size := s, blocks := 1,
            atime := fs1.create_time, mtime := fs1.create_time,
            ctime := fs1.create_time, crtime := fs1.create_time,
            kind := .regularFile, perm := 0o644, nlink := 1,
            uid := 501, gid := 20, rdev := 0, flags := 0 }
        (some a, (inode, a) :: attrs1)
  ({ main := main_attr, opt_data := opt_data_attr },
   { fs1 with inode_attrs := attrs2 })

/-- Index (in characters) of the start of the last occurrence of `pat` in
`s`, mirroring Rust `str::rfind` with a string pattern.  The byte index of
the source and the character index used here address the same occurrence,
since the pattern is plain ASCII. -/
def strRfind (s pat : String) : Option Nat :=
  ((List.range (s.toList.length + 1)).filter
    (fun i => pat.toList == (s.toList.drop i).take pat.toList.length)).getLast?

/-- Rust slicing `&name[..pos]` at a character boundary. -/
def strTake (s : String) (pos : Nat) : String :=
  String.mk (s.toList.take pos)

/-- The name-resolution loop of `NxFilesystem::lookup`: walk the `Normal`
path components, falling back on the `_data` suffix probe when an exact
child-name match fails.  Returns the resolved node together with the
`data_request` flag, or the not-found errno. -/
def lookupResolve : Node → Bool → List String → Reply (Node × Bool)
  | node, data_request, [] => .ok (node, data_request)
  | node, data_request, name :: rest =>
    match node.get name with
    | some node2 => lookupResolve node2 data_request rest
    | none =>
      match strRfind name "_data" with
      | some pos =>
        match node.get (strTake name pos) with
        | some node2 => lookupResolve node2 true rest
        | none => .err ENOENT
      | none => .err ENOENT

/-- Source `NxFilesystem::lookup`.  The path argument is modelled as its list of
`Normal` components (a non-`Normal` component or invalid UTF-8 panics in the
source before touching the engine state and is outside this model). -/
def lookup (fs : NxFilesystem) (parent : Nat) (name : List String) :
    Reply FileAttr × NxFilesystem :=
  match entriesNxnode fs.entries parent with
  | none => (.fatal "[lookup] Invalid parent", fs)
  | some node =>
    match lookupResolve node false name with
    | .err e => (.err e, fs)
    | .fatal m => (.fatal m, fs)
    | .ok (target, data_request) =>
      let (attrs, fs1) := node_file_attrs fs target
      if data_request then
        match attrs.opt_data with
        | some a => (.ok a, fs1)
        | none => (.fatal "called Option::unwrap() on a None value", fs1)
      else
        (.ok attrs.main, fs1)

/-- Source `NxFilesystem::getattr`. -/
def getattr (fs : NxFilesystem) (ino : Nat) : Reply FileAttr × NxFilesystem :=
  (match assocFind fs.inode_attrs ino with
   | some attr => .ok attr
   | none => .fatal "Could not get attribute for inode", fs)

/-- Source `NxFilesystem::read`: clamp the requested window to the materialized
content and reply with the sub-range. -/
def read (fs : NxFilesystem) (ino : Nat) (offset size : Nat) :
    Reply (List Nat) × NxFilesystem :=
  match entriesNxnode fs.entries ino with
  | none => (.fatal "[read] No node with inode exists.", fs)
  | some node =>
    with_node_data node (fun data =>
      let f := offset
      let t := min (f + size) data.length
      let f := min f t
      (.ok ((data.take t).drop f), fs))

/-- One directory entry handed to `reply.add` by `readdir`. -/
structure DirEntry where
  ino : Nat
  cookie : Nat
  kind : FileType
  name : String
deriving DecidableEq, Repr

/-- The child-emission loop of `NxFilesystem::readdir`
(`for (i, child) in node_to_read.iter().enumerate()`), with `i` the
enumeration index of the next child. -/
def readdirLoop : NxFilesystem → Nat → List Node → List DirEntry × NxFilesystem
  | fs, _, [] => ([], fs)
  | fs, i, child :: rest =>
    let file_type := node_file_type child
    let (inodes, fs1) := node_inodes fs child
    let (_, fs2) := node_file_attrs fs1 child
    let here :=
      { ino := inodes.main, cookie := i + 1, kind := file_type,
        name := child.name : DirEntry } ::
      (match inodes.opt_data with
       | some inode =>
         [{ ino := inode, cookie := i + 2, kind := .regularFile,
            name := child.name ++ "_data" : DirEntry }]
       | none => [])
    let (more, fs3) := readdirLoop fs2 (i + 1) rest
    (here ++ more, fs3)

/-- Source `NxFilesystem::readdir`: on offset 0 emit the listing of the resolved
node's children; on any other offset reply `ok` with no entries. -/
def readdir (fs : NxFilesystem) (ino offset : Nat) :
    Reply (List DirEntry) × NxFilesystem :=
  if offset = 0 then
    match entriesNxnode fs.entries ino with
    | none => (.fatal "Trying to read nonexistent dir", fs)
    | some node_to_read =>
      let (es, fs1) := readdirLoop fs 0 node_to_read.children
      (.ok es, fs1)
  else
    (.ok [], fs)

/-- One protocol operation performed by the host against the engine. -/
inductive Step : NxFilesystem → NxFilesystem → Prop where
  | ofLookup (fs : NxFilesystem) (parent : Nat) (name : List String) :
      Step fs (lookup fs parent name).2
  | ofGetattr (fs : NxFilesystem) (ino : Nat) :
      Step fs (getattr fs ino).2
  | ofRead (fs : NxFilesystem) (ino offset size : Nat) :
      Step fs (read fs ino offset size).2
  | ofReaddir (fs : NxFilesystem) (ino offset : Nat) :
      Step fs (readdir fs ino offset).2

/-- Engine states reachable from construction over an archive with root
`root` by any sequence of protocol operations. -/
def Reachable (root : Node) (now : Nat) (fs : NxFilesystem) : Prop :=
  Relation.ReflTransGen Step (new_with_nx_file root now) fs

/-! ## Derived specification values and basic lemmas -/

/-- The condition under which `node_inodes` allocates a shadow inode. -/
def shadow_cond (n : Node) : Bool :=
  node_has_children n && (n.dtype != NType.empty)

/-- The inode numbers owned by one registry entry. -/
def inodeList (i : NodeInodes) : List Nat :=
  i.main :: i.opt_data.toList

/-- All inode numbers owned by a registry. -/
def allInodes (es : List Entry) : List Nat :=
  es.flatMap (fun e => inodeList e.inodes)

/-- The primary attribute record `node_file_attrs` computes for a node. -/
def mainAttrOf (now ino : Nat) (n : Node) : FileAttr :=
  { ino := ino, size := (nodeContent n).length, blocks := 1,
    atime := now, mtime := now, ctime := now, crtime := now,
    kind := node_file_type n, perm := 0o644, nlink := 1,
    uid := 501, gid := 20, rdev := 0, flags := 0 }

/-- The shadow attribute record `node_file_attrs` computes for a node. -/
def shadowAttrOf (now ino : Nat) (n : Node) : FileAttr :=
  { ino := ino, size := (nodeContent n).length, blocks := 1,
    atime := now, mtime := now, ctime := now, crtime := now,
    kind := .regularFile, perm := 0o644, nlink := 1,
    uid := 501, gid := 20, rdev := 0, flags := 0 }

/-- State `fs'` extends `fs`: the registry grows by appending, cached attributes
are never changed or dropped, the counter never decreases, the clock and the
archive are fixed. -/
structure Extends (fs fs' : NxFilesystem) : Prop where
  root_eq : fs'.nx_root = fs.nx_root
  entries_ext : ∃ l, fs'.entries = fs.entries ++ l
  attrs_mono : ∀ k a, assocFind fs.inode_attrs k = some a →
    assocFind fs'.inode_attrs k = some a
  counter_mono : fs.inode_counter ≤ fs'.inode_counter
  time_eq : fs'.create_time = fs.create_time


/-! ## The registry invariant -/

/-- Structural part of the registry invariant: inode numbers are pairwise
distinct, bounded by the counter, and at least root+1 except for the root
inode itself; registered nodes are pairwise distinct. -/
structure InvCore (fs : NxFilesystem) : Prop where
  counter_ge : 2 ≤ fs.inode_counter
  nodes_nodup : (fs.entries.map Entry.nxnode).Nodup
  inodes_nodup : (allInodes fs.entries).Nodup
  inodes_bound : ∀ i ∈ allInodes fs.entries,
    i = FUSE_ROOT_ID ∨ (2 ≤ i ∧ i < fs.inode_counter)

/-- The full invariant of reachable engine states over archive root `root`
and construction time `now`. -/
structure Inv (root : Node) (now : Nat) (fs : NxFilesystem) : Prop where
  core : InvCore fs
  time_eq : fs.create_time = now
  head_root : fs.entries.head? = some (rootEntry root)
  main_root : ∀ e ∈ fs.entries, e.inodes.main = FUSE_ROOT_ID → e = rootEntry root
  shadow_law : ∀ e ∈ fs.entries, e ≠ rootEntry root →
    e.inodes.opt_data.isSome = shadow_cond e.nxnode
  size_le : ∀ e ∈ fs.entries, sizeOf e.nxnode ≤ sizeOf root
  attr_root : assocFind fs.inode_attrs FUSE_ROOT_ID = some (rootAttr now)
  attr_keys_nodup : (fs.inode_attrs.map Prod.fst).Nodup
  attr_keys_lt : ∀ k ∈ fs.inode_attrs.map Prod.fst, k < fs.inode_counter
  attr_main : ∀ e ∈ fs.entries, e ≠ rootEntry root → ∀ a,
    assocFind fs.inode_attrs e.inodes.main = some a →
    a = mainAttrOf now e.inodes.main e.nxnode
  attr_shadow : ∀ e ∈ fs.entries, ∀ io, e.inodes.opt_data = some io → ∀ a,
    assocFind fs.inode_attrs io = some a → a = shadowAttrOf now io e.nxnode


/-- The `(name, cookie, kind)` listing the spec predicts for `readdir`,
starting at enumeration index `i`: one primary entry per child, plus a
`_data` shadow entry for children satisfying the dual-presentation
condition; the primary cookie of the `i`-th child is `i+1`, its shadow
cookie `i+2`. -/
def listingSpec : Nat → List Node → List (String × Nat × FileType)
  | _, [] => []
  | i, c :: rest =>
    (c.name, i + 1, node_file_type c) ::
    ((if shadow_cond c then [(c.name ++ "_data", i + 2, FileType.regularFile)]
      else []) ++ listingSpec (i + 1) rest)

/-- The cookie stream of a readdir reply. -/
def cookiesOf (r : Reply (List DirEntry)) : List Nat :=
  match r with
  | .ok l => l.map DirEntry.cookie
  | _ => []


/-- Little-endian value of a 4-byte field. -/
def leNum4 (l : List Nat) : Nat :=
  match l with
  | [b0, b1, b2, b3] => b0 + 256 * b1 + 65536 * b2 + 16777216 * b3
  | _ => 0

/-- Little-endian value of a 2-byte field. -/
def leNum2 (l : List Nat) : Nat :=
  match l with
  | [b0, b1] => b0 + 256 * b1
  | _ => 0

/-- Read a little-endian 32-bit field at a byte offset. -/
def readLE32 (bytes : List Nat) (off : Nat) : Nat :=
  leNum4 ((bytes.drop off).take 4)

/-- Read a little-endian 16-bit field at a byte offset. -/
def readLE16 (bytes : List Nat) (off : Nat) : Nat :=
  leNum2 ((bytes.drop off).take 2)

/-- Reverse the row order of a pixel buffer (how a reader presents a
bottom-up BMP top-to-bottom). -/
def flipRows (rowLen h : Nat) (pix : List Nat) : List Nat :=
  (List.range h).reverse.flatMap (fun r => (pix.drop (rowLen * r)).take rowLen)

/-- Modelled from the spec: a standard image library reading the produced
single-frame BMP container (the external decoding side of the round-trip
requirement, which no code under src/ implements).  It checks the `BM`
signature, one plane, 32 bits per pixel, BI_BITFIELDS compression with the
masks selecting the byte order the encoder declares, reads width, height
(negative, i.e. two's-complement, height meaning top-to-bottom rows) and the
pixel-data offset from the self-describing header, and returns the
width, height and the top-to-bottom RGBA/BGRA byte buffer. -/
def bmpDecode (bytes : List Nat) : Option (Nat × Nat × List Nat) :=
  if bytes.take 2 = [0x42, 0x4D] then
    if readLE16 bytes 26 = 1 ∧ readLE16 bytes 28 = 32 ∧
       readLE32 bytes 30 = 3 ∧
       readLE32 bytes 54 = 16711680 ∧ readLE32 bytes 58 = 65280 ∧
       readLE32 bytes 62 = 255 ∧ readLE32 bytes 66 = 4278190080 then
      if 2147483648 ≤ readLE32 bytes 22 then
        if ((bytes.drop (readLE32 bytes 10)).take
              (4 * readLE32 bytes 18 * (4294967296 - readLE32 bytes 22))).length =
            4 * readLE32 bytes 18 * (4294967296 - readLE32 bytes 22) then
          some (readLE32 bytes 18, 4294967296 - readLE32 bytes 22,
            (bytes.drop (readLE32 bytes 10)).take
              (4 * readLE32 bytes 18 * (4294967296 - readLE32 bytes 22)))
        else none
      else
        if ((bytes.drop (readLE32 bytes 10)).take
              (4 * readLE32 bytes 18 * readLE32 bytes 22)).length =
            4 * readLE32 bytes 18 * readLE32 bytes 22 then
          some (readLE32 bytes 18, readLE32 bytes 22,
            flipRows (4 * readLE32 bytes 18) (readLE32 bytes 22)
              ((bytes.drop (readLE32 bytes 10)).take
                (4 * readLE32 bytes 18 * readLE32 bytes 22)))
        else none
    else none
  else none

@[simp]
theorem Node.name_mk (nm : String) (d : NodeData) (cs : List Node) :
    (Node.mk nm d cs).name = nm := rfl

@[simp]
theorem Node.data_mk (nm : String) (d : NodeData) (cs : List Node) :
    (Node.mk nm d cs).data = d := rfl

@[simp]
theorem Node.children_mk (nm : String) (d : NodeData) (cs : List Node) :
    (Node.mk nm d cs).children = cs := rfl

theorem sizeOf_lt_of_mem_children {c n : Node} (h : c ∈ n.children) :
    sizeOf c < sizeOf n := by
  cases n with
  | mk nm d cs =>
    have h1 : sizeOf c < sizeOf cs := List.sizeOf_lt_of_mem h
    have h2 : sizeOf (Node.mk nm d cs) = 1 + sizeOf nm + sizeOf d + sizeOf cs :=
      Node.mk.sizeOf_spec nm d cs
    omega

theorem Node.get_mem {n : Node} {s : String} {c : Node} (h : n.get s = some c) :
    c ∈ n.children :=
  List.mem_of_find?_eq_some h

theorem Node.get_size {n : Node} {s : String} {c : Node} (h : n.get s = some c) :
    sizeOf c < sizeOf n :=
  sizeOf_lt_of_mem_children (Node.get_mem h)

theorem wnd_eq {R : Type} (node : Node) (func : List Nat → R) :
    with_node_data node func = func (nodeContent node) := by
  cases hd : node.data <;> simp [with_node_data, nodeContent, hd]

theorem wnd_length (node : Node) :
    with_node_data node List.length = (nodeContent node).length := by
  rw [wnd_eq]

/-! ## Equations for the registry operations -/

theorem entriesInodes_append_some {es l : List Entry} {n : Node} {i : NodeInodes}
    (h : entriesInodes es n = some i) : entriesInodes (es ++ l) n = some i := by
  unfold entriesInodes at *
  rw [List.find?_append]
  cases hf : es.find? (fun entry => entry.nxnode == n) with
  | none => rw [hf] at h; exact absurd h (by simp)
  | some e => rw [hf] at h; simpa [Option.or] using h

theorem entriesNxnode_append_some {es l : List Entry} {ino : Nat} {p : Node}
    (h : entriesNxnode es ino = some p) : entriesNxnode (es ++ l) ino = some p := by
  unfold entriesNxnode at *
  rw [List.find?_append]
  cases hf : es.find? (fun entry => entry.inodes.main == ino ||
      match entry.inodes.opt_data with
      | some i => ino == i
      | none => false) with
  | none => rw [hf] at h; exact absurd h (by simp)
  | some e => rw [hf] at h; simpa using h

theorem entriesInodes_mem {es : List Entry} {n : Node} {i : NodeInodes}
    (h : entriesInodes es n = some i) :
    ∃ e, e ∈ es ∧ e.nxnode = n ∧ e.inodes = i := by
  unfold entriesInodes at h
  cases hf : es.find? (fun entry => entry.nxnode == n) with
  | none => rw [hf] at h; exact absurd h (by simp)
  | some e =>
    rw [hf] at h
    refine ⟨e, List.mem_of_find?_eq_some hf, ?_, by simpa using h⟩
    have := List.find?_some hf
    simpa using this

theorem entriesInodes_none_iff {es : List Entry} {n : Node} :
    entriesInodes es n = none ↔ ∀ e ∈ es, e.nxnode ≠ n := by
  unfold entriesInodes
  cases hf : es.find? (fun entry => entry.nxnode == n) with
  | none =>
    simp only [List.find?_eq_none, beq_iff_eq] at hf
    simpa using hf
  | some e =>
    have h1 := List.find?_some hf
    have h2 := List.mem_of_find?_eq_some hf
    rw [beq_iff_eq] at h1
    exact ⟨fun h => absurd h (by simp), fun h => (h e h2 h1).elim⟩

theorem entriesNxnode_mem {es : List Entry} {ino : Nat} {p : Node}
    (h : entriesNxnode es ino = some p) :
    ∃ e, e ∈ es ∧ e.nxnode = p ∧
      (e.inodes.main = ino ∨ e.inodes.opt_data = some ino) := by
  unfold entriesNxnode at h
  cases hf : es.find? (fun entry => entry.inodes.main == ino ||
      match entry.inodes.opt_data with
      | some i => ino == i
      | none => false) with
  | none => rw [hf] at h; exact absurd h (by simp)
  | some e =>
    rw [hf] at h
    refine ⟨e, List.mem_of_find?_eq_some hf, by simpa using h, ?_⟩
    have h1 := List.find?_some hf
    simp only [Bool.or_eq_true, beq_iff_eq] at h1
    rcases h1 with h1 | h1
    · exact Or.inl h1
    · right
      cases ho : e.inodes.opt_data with
      | none => rw [ho] at h1; simp at h1
      | some j => rw [ho] at h1; simp only [beq_iff_eq] at h1; rw [h1]

theorem assocFind_eq_none {l : List (Nat × FileAttr)} {k : Nat} :
    assocFind l k = none ↔ k ∉ l.map Prod.fst := by
  induction l with
  | nil => simp [assocFind]
  | cons p rest ih =>
    obtain ⟨k2, a⟩ := p
    by_cases hk : k2 = k
    · subst hk; simp [assocFind]
    · simp only [assocFind, if_neg hk, ih, List.map_cons, List.mem_cons]
      have hk2 : ¬k = k2 := fun he => hk he.symm
      tauto

theorem assocFind_insert_other {l : List (Nat × FileAttr)} {k0 k : Nat}
    {a0 : FileAttr} (h : k0 ≠ k) :
    assocFind ((k0, a0) :: l) k = assocFind l k := by
  simp [assocFind, h]

theorem assocFind_insert_self (l : List (Nat × FileAttr)) (k : Nat) (a : FileAttr) :
    assocFind ((k, a) :: l) k = some a := by
  simp [assocFind]

theorem assocFind_stable_of_vacant {l : List (Nat × FileAttr)} {k0 k : Nat}
    {a0 a : FileAttr} (hv : assocFind l k0 = none) (h : assocFind l k = some a) :
    assocFind ((k0, a0) :: l) k = some a := by
  have hk : k0 ≠ k := by
    intro he
    rw [he, h] at hv
    exact absurd hv (by simp)
  rw [assocFind_insert_other hk, h]

theorem ni_found {fs : NxFilesystem} {n : Node} {i : NodeInodes}
    (h : entriesInodes fs.entries n = some i) : node_inodes fs n = (i, fs) := by
  simp [node_inodes, h]

theorem ni_fresh {fs : NxFilesystem} {n : Node}
    (h : entriesInodes fs.entries n = none) :
    node_inodes fs n =
      ({ main := fs.inode_counter,
         opt_data := if shadow_cond n then some (fs.inode_counter + 1) else none },
       { fs with
         inode_counter :=
           if shadow_cond n then fs.inode_counter + 2 else fs.inode_counter + 1,
         entries := fs.entries ++
           [{ nxnode := n,
              inodes :=
                { main := fs.inode_counter,
                  opt_data :=
                    if shadow_cond n then some (fs.inode_counter + 1)
                    else none } }] }) := by
  have hs : (node_has_children n && (n.dtype != NType.empty)) = shadow_cond n := rfl
  simp only [node_inodes, h, new_inode, hs]
  cases hc : shadow_cond n <;> simp [hc]

/-! ## Persistence: every operation only extends the state -/

theorem Extends.refl (fs : NxFilesystem) : Extends fs fs :=
  ⟨rfl, ⟨[], (List.append_nil _).symm⟩, fun _ _ h => h, le_rfl, rfl⟩

theorem Extends.trans {fs1 fs2 fs3 : NxFilesystem}
    (h1 : Extends fs1 fs2) (h2 : Extends fs2 fs3) : Extends fs1 fs3 := by
  refine ⟨h2.root_eq.trans h1.root_eq, ?_, fun k a h => h2.attrs_mono k a (h1.attrs_mono k a h),
    h1.counter_mono.trans h2.counter_mono, h2.time_eq.trans h1.time_eq⟩
  obtain ⟨l1, e1⟩ := h1.entries_ext
  obtain ⟨l2, e2⟩ := h2.entries_ext
  exact ⟨l1 ++ l2, by rw [e2, e1, List.append_assoc]⟩

theorem ni_extends (fs : NxFilesystem) (n : Node) :
    Extends fs (node_inodes fs n).2 := by
  cases hf : entriesInodes fs.entries n with
  | some i => rw [ni_found hf]; exact Extends.refl fs
  | none =>
    rw [ni_fresh hf]
    cases hc : shadow_cond n <;>
      exact ⟨rfl, ⟨_, rfl⟩, fun _ _ h => h, by simp [hc], rfl⟩


/-- Case-explicit form of `node_file_attrs`, phrased over the result of
`node_inodes` and the two cache probes. -/
theorem nfa_spec (fs : NxFilesystem) (n : Node) :
    node_file_attrs fs n =
      (let i := (node_inodes fs n).1
       let fs1 := (node_inodes fs n).2
       let main_attr :=
         match assocFind fs1.inode_attrs i.main with
         | some a => a
         | none => mainAttrOf fs1.create_time i.main n
       let attrs1 :=
         match assocFind fs1.inode_attrs i.main with
         | some _ => fs1.inode_attrs
         | none => (i.main, mainAttrOf fs1.create_time i.main n) :: fs1.inode_attrs
       let opt_attr :=
         match i.opt_data with
         | none => (none : Option FileAttr)
         | some io =>
           match assocFind attrs1 io with
           | some a => some a
           | none => some (shadowAttrOf fs1.create_time io n)
       let attrs2 :=
         match i.opt_data with
         | none => attrs1
         | some io =>
           match assocFind attrs1 io with
           | some _ => attrs1
           | none => (io, shadowAttrOf fs1.create_time io n) :: attrs1
       ({ main := main_attr, opt_data := opt_attr },
        { fs1 with inode_attrs := attrs2 })) := by
  rcases hni : node_inodes fs n with ⟨i, fs1⟩
  unfold node_file_attrs
  rw [hni]
  simp only [hni]
  cases hm : assocFind fs1.inode_attrs i.main with
  | some a =>
    cases ho : i.opt_data with
    | none => simp [hm, ho]
    | some io =>
      cases hs : assocFind fs1.inode_attrs io with
      | some b => simp [hm, ho, hs]
      | none => simp [hm, ho, hs, shadowAttrOf, wnd_length]
  | none =>
    cases ho : i.opt_data with
    | none => simp [hm, ho, mainAttrOf, wnd_length]
    | some io =>
      cases hs : assocFind ((i.main, mainAttrOf fs1.create_time i.main n) :: fs1.inode_attrs) io with
      | some b =>
        simp only [hm, ho, mainAttrOf, wnd_length] at hs ⊢
        simp [hs, mainAttrOf, wnd_length]
      | none =>
        simp only [hm, ho, mainAttrOf, wnd_length] at hs ⊢
        simp [hs, mainAttrOf, shadowAttrOf, wnd_length]

theorem nfa_extends (fs : NxFilesystem) (n : Node) :
    Extends fs (node_file_attrs fs n).2 := by
  refine Extends.trans (ni_extends fs n) ?_
  rw [nfa_spec]
  simp only
  cases hm : assocFind (node_inodes fs n).2.inode_attrs (node_inodes fs n).1.main with
  | some a =>
    cases ho : (node_inodes fs n).1.opt_data with
    | none => exact Extends.refl _
    | some io =>
      cases hs : assocFind (node_inodes fs n).2.inode_attrs io with
      | some b => simp only [hs]; exact Extends.refl _
      | none =>
        simp only [hs]
        exact ⟨rfl, ⟨[], by simp⟩,
          fun k a2 h => assocFind_stable_of_vacant hs h, le_rfl, rfl⟩
  | none =>
    cases ho : (node_inodes fs n).1.opt_data with
    | none =>
      exact ⟨rfl, ⟨[], by simp⟩,
        fun k a2 h => assocFind_stable_of_vacant hm h, le_rfl, rfl⟩
    | some io =>
      cases hs : assocFind
          (((node_inodes fs n).1.main,
            mainAttrOf (node_inodes fs n).2.create_time (node_inodes fs n).1.main n)
            :: (node_inodes fs n).2.inode_attrs) io with
      | some b =>
        simp only [hs]
        exact ⟨rfl, ⟨[], by simp⟩,
          fun k a2 h => assocFind_stable_of_vacant hm h, le_rfl, rfl⟩
      | none =>
        simp only [hs]
        refine ⟨rfl, ⟨[], by simp⟩, fun k a2 h => ?_, le_rfl, rfl⟩
        exact assocFind_stable_of_vacant hs (assocFind_stable_of_vacant hm h)

theorem Extends.entriesInodes_mono {fs fs' : NxFilesystem} {n : Node}
    {i : NodeInodes} (he : Extends fs fs')
    (h : entriesInodes fs.entries n = some i) :
    entriesInodes fs'.entries n = some i := by
  obtain ⟨l, hl⟩ := he.entries_ext
  rw [hl]
  exact entriesInodes_append_some h

theorem Extends.entriesNxnode_mono {fs fs' : NxFilesystem} {ino : Nat}
    {p : Node} (he : Extends fs fs')
    (h : entriesNxnode fs.entries ino = some p) :
    entriesNxnode fs'.entries ino = some p := by
  obtain ⟨l, hl⟩ := he.entries_ext
  rw [hl]
  exact entriesNxnode_append_some h

theorem Extends.mem_entries {fs fs' : NxFilesystem} {e : Entry}
    (he : Extends fs fs') (h : e ∈ fs.entries) : e ∈ fs'.entries := by
  obtain ⟨l, hl⟩ := he.entries_ext
  rw [hl]
  exact List.mem_append_left l h

theorem Extends.allInodes_mono {fs fs' : NxFilesystem} {x : Nat}
    (he : Extends fs fs') (h : x ∈ allInodes fs.entries) :
    x ∈ allInodes fs'.entries := by
  obtain ⟨l, hl⟩ := he.entries_ext
  rw [hl]
  unfold allInodes at *
  rw [List.flatMap_append]
  exact List.mem_append_left _ h

theorem getattr_snd (fs : NxFilesystem) (ino : Nat) : (getattr fs ino).2 = fs := rfl


theorem read_snd (fs : NxFilesystem) (ino offset size : Nat) :
    (read fs ino offset size).2 = fs := by
  cases hf : entriesNxnode fs.entries ino with
  | none => simp [read, hf]
  | some node => simp [read, hf, wnd_eq]

theorem lookup_noparent {fs : NxFilesystem} {parent : Nat} {name : List String}
    (hp : entriesNxnode fs.entries parent = none) :
    lookup fs parent name = (.fatal "[lookup] Invalid parent", fs) := by
  simp [lookup, hp]

theorem lookup_err {fs : NxFilesystem} {parent : Nat} {name : List String}
    {node : Node} {e : Nat} (hp : entriesNxnode fs.entries parent = some node)
    (hr : lookupResolve node false name = .err e) :
    lookup fs parent name = (.err e, fs) := by
  simp [lookup, hp, hr]

theorem lookup_ok_primary {fs : NxFilesystem} {parent : Nat} {name : List String}
    {node target : Node} (hp : entriesNxnode fs.entries parent = some node)
    (hr : lookupResolve node false name = .ok (target, false)) :
    lookup fs parent name =
      (.ok (node_file_attrs fs target).1.main, (node_file_attrs fs target).2) := by
  rcases hfa : node_file_attrs fs target with ⟨attrs, fs1⟩
  simp [lookup, hp, hr, hfa]

theorem lookup_ok_data_some {fs : NxFilesystem} {parent : Nat}
    {name : List String} {node target : Node} {a : FileAttr}
    (hp : entriesNxnode fs.entries parent = some node)
    (hr : lookupResolve node false name = .ok (target, true))
    (ho : (node_file_attrs fs target).1.opt_data = some a) :
    lookup fs parent name = (.ok a, (node_file_attrs fs target).2) := by
  rcases hfa : node_file_attrs fs target with ⟨attrs, fs1⟩
  rw [hfa] at ho
  have ho2 : attrs.opt_data = some a := ho
  simp [lookup, hp, hr, hfa, ho2]

theorem lookup_ok_data_none {fs : NxFilesystem} {parent : Nat}
    {name : List String} {node target : Node}
    (hp : entriesNxnode fs.entries parent = some node)
    (hr : lookupResolve node false name = .ok (target, true))
    (ho : (node_file_attrs fs target).1.opt_data = none) :
    lookup fs parent name =
      (.fatal "called Option::unwrap() on a None value",
       (node_file_attrs fs target).2) := by
  rcases hfa : node_file_attrs fs target with ⟨attrs, fs1⟩
  rw [hfa] at ho
  have ho2 : attrs.opt_data = none := ho
  simp [lookup, hp, hr, hfa, ho2]

theorem lookup_extends (fs : NxFilesystem) (parent : Nat) (name : List String) :
    Extends fs (lookup fs parent name).2 := by
  cases hp : entriesNxnode fs.entries parent with
  | none => rw [lookup_noparent hp]; exact Extends.refl fs
  | some node =>
    cases hr : lookupResolve node false name with
    | err e => rw [lookup_err hp hr]; exact Extends.refl fs
    | fatal m => simp [lookup, hp, hr]; exact Extends.refl fs
    | ok pair =>
      obtain ⟨target, data_request⟩ := pair
      cases data_request with
      | false =>
        rw [lookup_ok_primary hp hr]
        exact nfa_extends fs target
      | true =>
        cases ho : (node_file_attrs fs target).1.opt_data with
        | some a => rw [lookup_ok_data_some hp hr ho]; exact nfa_extends fs target
        | none => rw [lookup_ok_data_none hp hr ho]; exact nfa_extends fs target

theorem readdirLoop_cons (fs : NxFilesystem) (i : Nat) (child : Node)
    (rest : List Node) :
    readdirLoop fs i (child :: rest) =
      (({ ino := (node_inodes fs child).1.main, cookie := i + 1,
          kind := node_file_type child, name := child.name : DirEntry } ::
        ((match (node_inodes fs child).1.opt_data with
          | some ino =>
            [{ ino := ino, cookie := i + 2, kind := .regularFile,
               name := child.name ++ "_data" : DirEntry }]
          | none => []) ++
         (readdirLoop (node_file_attrs (node_inodes fs child).2 child).2
            (i + 1) rest).1)),
       (readdirLoop (node_file_attrs (node_inodes fs child).2 child).2
          (i + 1) rest).2) := by
  rcases h1 : node_inodes fs child with ⟨inodes, fs1⟩
  rcases h2 : node_file_attrs fs1 child with ⟨attrs, fs2⟩
  rcases h3 : readdirLoop fs2 (i + 1) rest with ⟨more, fs3⟩
  simp [readdirLoop, h1, h2, h3]

theorem readdirLoop_extends (cs : List Node) :
    ∀ (fs : NxFilesystem) (i : Nat), Extends fs (readdirLoop fs i cs).2 := by
  induction cs with
  | nil => intro fs i; exact Extends.refl fs
  | cons child rest ih =>
    intro fs i
    rw [readdirLoop_cons]
    exact Extends.trans (ni_extends fs child)
      (Extends.trans (nfa_extends (node_inodes fs child).2 child)
        (ih (node_file_attrs (node_inodes fs child).2 child).2 (i + 1)))

theorem readdir_zero_found {fs : NxFilesystem} {ino : Nat} {p : Node}
    (hp : entriesNxnode fs.entries ino = some p) :
    readdir fs ino 0 =
      (.ok (readdirLoop fs 0 p.children).1, (readdirLoop fs 0 p.children).2) := by
  rcases hl : readdirLoop fs 0 p.children with ⟨es, fs1⟩
  simp [readdir, hp, hl]

theorem readdir_extends (fs : NxFilesystem) (ino offset : Nat) :
    Extends fs (readdir fs ino offset).2 := by
  by_cases hz : offset = 0
  · subst hz
    cases hp : entriesNxnode fs.entries ino with
    | none => simp [readdir, hp]; exact Extends.refl fs
    | some p =>
      rw [readdir_zero_found hp]
      exact readdirLoop_extends p.children fs 0
  · simp [readdir, hz]
    exact Extends.refl fs

theorem step_extends {fs fs' : NxFilesystem} (h : Step fs fs') : Extends fs fs' := by
  cases h with
  | ofLookup parent name => exact lookup_extends fs parent name
  | ofGetattr ino => rw [getattr_snd]; exact Extends.refl fs
  | ofRead ino offset size => rw [read_snd]; exact Extends.refl fs
  | ofReaddir ino offset => exact readdir_extends fs ino offset

theorem steps_extends {fs fs' : NxFilesystem}
    (h : Relation.ReflTransGen Step fs fs') : Extends fs fs' := by
  induction h with
  | refl => exact Extends.refl fs
  | tail h1 h2 ih => exact Extends.trans ih (step_extends h2)

theorem ni_registers (fs : NxFilesystem) (n : Node) :
    entriesInodes (node_inodes fs n).2.entries n = some (node_inodes fs n).1 := by
  cases hf : entriesInodes fs.entries n with
  | some i => rw [ni_found hf]; exact hf
  | none =>
    rw [ni_fresh hf]
    have h0 : fs.entries.find? (fun e => e.nxnode == n) = none := by
      unfold entriesInodes at hf
      cases hx : fs.entries.find? (fun e => e.nxnode == n) with
      | none => rfl
      | some e => rw [hx] at hf; exact absurd hf (by simp)
    unfold entriesInodes
    rw [List.find?_append, h0]
    simp [Option.or]

theorem nfa_entries (fs : NxFilesystem) (n : Node) :
    (node_file_attrs fs n).2.entries = (node_inodes fs n).2.entries := by
  rw [nfa_spec]

theorem nfa_registered (fs : NxFilesystem) (n : Node) :
    entriesInodes (node_file_attrs fs n).2.entries n =
      some (node_inodes fs n).1 := by
  rw [nfa_entries]
  exact ni_registers fs n

theorem nfa_caches_main (fs : NxFilesystem) (n : Node) :
    assocFind (node_file_attrs fs n).2.inode_attrs (node_inodes fs n).1.main =
      some (node_file_attrs fs n).1.main := by
  rw [nfa_spec]
  simp only
  cases hm : assocFind (node_inodes fs n).2.inode_attrs (node_inodes fs n).1.main with
  | some a =>
    cases ho : (node_inodes fs n).1.opt_data with
    | none => exact hm
    | some io =>
      cases hs : assocFind (node_inodes fs n).2.inode_attrs io with
      | some b => simp only [hs]; exact hm
      | none => simp only [hs]; exact assocFind_stable_of_vacant hs hm
  | none =>
    cases ho : (node_inodes fs n).1.opt_data with
    | none => exact assocFind_insert_self _ _ _
    | some io =>
      cases hs : assocFind
          (((node_inodes fs n).1.main,
            mainAttrOf (node_inodes fs n).2.create_time (node_inodes fs n).1.main n)
            :: (node_inodes fs n).2.inode_attrs) io with
      | some b => simp only [hs]; exact assocFind_insert_self _ _ _
      | none =>
        simp only [hs]
        exact assocFind_stable_of_vacant hs (assocFind_insert_self _ _ _)

theorem nfa_opt_none {fs : NxFilesystem} {n : Node}
    (ho : (node_inodes fs n).1.opt_data = none) :
    (node_file_attrs fs n).1.opt_data = none := by
  rw [nfa_spec]
  simp [ho]

theorem nfa_caches_opt {fs : NxFilesystem} {n : Node} {io : Nat}
    (ho : (node_inodes fs n).1.opt_data = some io) :
    ∃ b, (node_file_attrs fs n).1.opt_data = some b ∧
      assocFind (node_file_attrs fs n).2.inode_attrs io = some b := by
  rw [nfa_spec]
  simp only [ho]
  cases hm : assocFind (node_inodes fs n).2.inode_attrs (node_inodes fs n).1.main with
  | some a =>
    simp only
    cases hs : assocFind (node_inodes fs n).2.inode_attrs io with
    | some b => exact ⟨b, rfl, hs⟩
    | none => exact ⟨_, rfl, assocFind_insert_self _ _ _⟩
  | none =>
    simp only
    cases hs : assocFind
        (((node_inodes fs n).1.main,
          mainAttrOf (node_inodes fs n).2.create_time (node_inodes fs n).1.main n)
          :: (node_inodes fs n).2.inode_attrs) io with
    | some b => exact ⟨b, rfl, hs⟩
    | none => exact ⟨_, rfl, assocFind_insert_self _ _ _⟩

theorem nfa_of_cached_none {fs : NxFilesystem} {n : Node} {i : NodeInodes}
    {am : FileAttr} (hi : entriesInodes fs.entries n = some i)
    (hm : assocFind fs.inode_attrs i.main = some am)
    (ho : i.opt_data = none) :
    node_file_attrs fs n = ({ main := am, opt_data := none }, fs) := by
  rw [nfa_spec, ni_found hi]
  simp [hm, ho]

theorem nfa_of_cached_some {fs : NxFilesystem} {n : Node} {i : NodeInodes}
    {am b : FileAttr} {io : Nat} (hi : entriesInodes fs.entries n = some i)
    (hm : assocFind fs.inode_attrs i.main = some am)
    (ho : i.opt_data = some io)
    (hb : assocFind fs.inode_attrs io = some b) :
    node_file_attrs fs n = ({ main := am, opt_data := some b }, fs) := by
  rw [nfa_spec, ni_found hi]
  simp [hm, ho, hb]

/-! ## Claim C7: idempotence of the registry and the attribute cache -/

/-- C7: `node_inodes` is idempotent — once a node has been assigned inodes, a
second call, after any interleaved engine operations, returns exactly the same
inode numbers and leaves the state untouched; likewise `node_file_attrs`
returns the records cached by the first call. -/
theorem inodes_attrs_idempotent (fs : NxFilesystem) (n : Node)
    (fs1 fs2 : NxFilesystem)
    (h1 : Relation.ReflTransGen Step (node_inodes fs n).2 fs1)
    (h2 : Relation.ReflTransGen Step (node_file_attrs fs n).2 fs2) :
    node_inodes fs1 n = ((node_inodes fs n).1, fs1) ∧
    (node_file_attrs fs2 n).1 = (node_file_attrs fs n).1 := by
  constructor
  · exact ni_found ((steps_extends h1).entriesInodes_mono (ni_registers fs n))
  · have he : Extends (node_file_attrs fs n).2 fs2 := steps_extends h2
    have hi2 : entriesInodes fs2.entries n = some (node_inodes fs n).1 :=
      he.entriesInodes_mono (nfa_registered fs n)
    have hm2 : assocFind fs2.inode_attrs (node_inodes fs n).1.main =
        some (node_file_attrs fs n).1.main :=
      he.attrs_mono _ _ (nfa_caches_main fs n)
    cases ho : (node_inodes fs n).1.opt_data with
    | none =>
      rw [nfa_of_cached_none hi2 hm2 ho]
      have hono := nfa_opt_none ho
      cases hx : (node_file_attrs fs n).1 with
      | mk m o =>
        rw [hx] at hono
        simp only at hono ⊢
        simp [hono]
    | some io =>
      obtain ⟨b, hb1, hb2⟩ := nfa_caches_opt ho
      rw [nfa_of_cached_some hi2 hm2 ho (he.attrs_mono _ _ hb2)]
      cases hx : (node_file_attrs fs n).1 with
      | mk m o =>
        rw [hx] at hb1
        simp only at hb1 ⊢
        simp [hb1]

theorem inodes_attrs_idempotent_witness :
    (let root := Node.mk "" NodeData.empty [Node.mk "a" (NodeData.str "x") []]
     let fs := new_with_nx_file root 0
     let n := Node.mk "a" (NodeData.str "x") []
     node_inodes (node_inodes fs n).2 n =
        ((node_inodes fs n).1, (node_inodes fs n).2) ∧
     (node_file_attrs (node_file_attrs fs n).2 n).1 =
        (node_file_attrs fs n).1) :=
  inodes_attrs_idempotent
    (new_with_nx_file (Node.mk "" NodeData.empty [Node.mk "a" (NodeData.str "x") []]) 0)
    (Node.mk "a" (NodeData.str "x") []) _ _
    Relation.ReflTransGen.refl Relation.ReflTransGen.refl

/-! ## Claim C10: readdir with a non-zero offset is a no-op -/

/-- C10: for every inode (registered or not) and every offset other than 0,
`readdir` replies ok with an empty entry stream and leaves the state
unchanged — the inode is never resolved, so no fatal path can trigger. -/
theorem readdir_nonzero_offset_noop (fs : NxFilesystem) (ino offset : Nat)
    (hoff : offset ≠ 0) : readdir fs ino offset = (Reply.ok [], fs) := by
  simp [readdir, hoff]

theorem readdir_nonzero_offset_noop_witness :
    (1 : Nat) ≠ 0 ∧
    readdir (new_with_nx_file (Node.mk "" NodeData.empty []) 0) 999 1 =
      (Reply.ok [], new_with_nx_file (Node.mk "" NodeData.empty []) 0) :=
  ⟨by decide,
   readdir_nonzero_offset_noop
     (new_with_nx_file (Node.mk "" NodeData.empty []) 0) 999 1 (by decide)⟩

/-! ## Claim C4: read clamps the window and never errors -/

/-- C4: for a registered inode with materialized content of length `L`,
`read(ino, offset, size)` replies exactly
`content[min(offset, L) .. min(offset+size, L)]`; in particular for
`offset ≥ L` the reply is the empty range, and the state is unchanged —
no error is possible for an out-of-range offset. -/
theorem read_clamps (fs : NxFilesystem) (ino offset size : Nat) (n : Node)
    (hn : entriesNxnode fs.entries ino = some n) :
    (read fs ino offset size).1 =
      Reply.ok
        (((nodeContent n).take (min (offset + size) (nodeContent n).length)).drop
          (min offset (nodeContent n).length)) ∧
    ((nodeContent n).length ≤ offset → (read fs ino offset size).1 = Reply.ok []) ∧
    (read fs ino offset size).2 = fs := by
  have h1 : (read fs ino offset size).1 =
      Reply.ok
        (((nodeContent n).take (min (offset + size) (nodeContent n).length)).drop
          (min offset (nodeContent n).length)) := by
    simp only [read, hn, wnd_eq]
    have hmin : min offset (min (offset + size) (nodeContent n).length) =
        min offset (nodeContent n).length := by omega
    rw [hmin]
  refine ⟨h1, fun hL => ?_, read_snd fs ino offset size⟩
  rw [h1]
  have hdrop :
      ((nodeContent n).take (min (offset + size) (nodeContent n).length)).drop
        (min offset (nodeContent n).length) = [] := by
    apply List.drop_eq_nil_of_le
    rw [List.length_take]
    omega
  rw [hdrop]

theorem read_clamps_witness :
    (let root := Node.mk "" (NodeData.str "hello") []
     let fs := new_with_nx_file root 0
     entriesNxnode fs.entries 1 = some root ∧
     (read fs 1 2 2).1 =
       Reply.ok
         (((nodeContent root).take (min (2 + 2) (nodeContent root).length)).drop
           (min 2 (nodeContent root).length)) ∧
     (read fs 1 9 3).1 = Reply.ok []) := by
  refine ⟨by decide, ?_, ?_⟩
  · exact (read_clamps (new_with_nx_file (Node.mk "" (NodeData.str "hello") []) 0)
      1 2 2 (Node.mk "" (NodeData.str "hello") []) (by decide)).1
  · exact (read_clamps (new_with_nx_file (Node.mk "" (NodeData.str "hello") []) 0)
      1 9 3 (Node.mk "" (NodeData.str "hello") []) (by decide)).2.1 (by decide)

/-! ## Claim C8: the content materializer is a pure per-kind table -/

/-- C8: `with_node_data` is a deterministic, side-effect-free function of the
node: every continuation receives exactly the per-kind bytes — nothing for
Empty, the decimal text of an Integer, the decimal rendering of a Float, the
raw encoded bytes of a String, the text `(x, y)` for a Vector, and the raw
payload of an Audio node — and repeated calls yield identical bytes. -/
theorem materializer_table {R : Type} (func : List Nat → R) (nm : String)
    (cs : List Node) (i : Int) (r s : String) (x y : Int) (buf : List Nat)
    (n : Node) :
    with_node_data (Node.mk nm NodeData.empty cs) func = func [] ∧
    with_node_data (Node.mk nm (NodeData.integer i) cs) func =
      func (utf8Bytes (toString i)) ∧
    with_node_data (Node.mk nm (NodeData.float r) cs) func =
      func (utf8Bytes r) ∧
    with_node_data (Node.mk nm (NodeData.str s) cs) func =
      func (utf8Bytes s) ∧
    with_node_data (Node.mk nm (NodeData.vector x y) cs) func =
      func (utf8Bytes ( "(" ++ toString x ++ ", " ++ toString y ++ ")")) ∧
    with_node_data (Node.mk nm (NodeData.audio buf) cs) func = func buf ∧
    with_node_data n func = func (nodeContent n) :=
  ⟨rfl, rfl, rfl, rfl, rfl, rfl, wnd_eq n func⟩

theorem allInodes_cons (e : Entry) (es : List Entry) :
    allInodes (e :: es) = inodeList e.inodes ++ allInodes es := by
  simp [allInodes]

theorem allInodes_append (es l : List Entry) :
    allInodes (es ++ l) = allInodes es ++ allInodes l := by
  simp [allInodes]

theorem mem_allInodes_of_mem {e : Entry} {es : List Entry} (he : e ∈ es)
    {x : Nat} (hx : x ∈ inodeList e.inodes) : x ∈ allInodes es := by
  unfold allInodes
  exact List.mem_flatMap.2 ⟨e, he, hx⟩

theorem inodeList_nodup_of_mem {es : List Entry} (hnd : (allInodes es).Nodup)
    {e : Entry} (he : e ∈ es) : (inodeList e.inodes).Nodup := by
  induction es with
  | nil => cases he
  | cons a t ih =>
    rw [allInodes_cons, List.nodup_append] at hnd
    cases he with
    | head => exact hnd.1
    | tail _ ht => exact ih hnd.2.1 ht

theorem entry_eq_of_shared_inode {es : List Entry}
    (hnd : (allInodes es).Nodup) {e1 e2 : Entry} (h1 : e1 ∈ es) (h2 : e2 ∈ es)
    {x : Nat} (hx1 : x ∈ inodeList e1.inodes) (hx2 : x ∈ inodeList e2.inodes) :
    e1 = e2 := by
  induction es with
  | nil => cases h1
  | cons a t ih =>
    rw [allInodes_cons, List.nodup_append] at hnd
    cases h1 with
    | head =>
      cases h2 with
      | head => rfl
      | tail _ ht2 => exact absurd (mem_allInodes_of_mem ht2 hx2) (hnd.2.2 hx1)
    | tail _ ht1 =>
      cases h2 with
      | head => exact absurd (mem_allInodes_of_mem ht1 hx1) (hnd.2.2 hx2)
      | tail _ ht2 => exact ih hnd.2.1 ht1 ht2

theorem main_mem_inodeList (i : NodeInodes) : i.main ∈ inodeList i := by
  simp [inodeList]

theorem opt_mem_inodeList {i : NodeInodes} {io : Nat}
    (h : i.opt_data = some io) : io ∈ inodeList i := by
  simp [inodeList, h]

theorem opt_ne_main {es : List Entry} (hnd : (allInodes es).Nodup) {e : Entry}
    (he : e ∈ es) {io : Nat} (h : e.inodes.opt_data = some io) :
    io ≠ e.inodes.main := by
  have hb := inodeList_nodup_of_mem hnd he
  unfold inodeList at hb
  rw [h] at hb
  simp at hb
  exact fun hx => hb hx.symm

theorem assocFind_some_mem_keys {l : List (Nat × FileAttr)} {k : Nat}
    {a : FileAttr} (h : assocFind l k = some a) : k ∈ l.map Prod.fst := by
  by_contra hk
  rw [assocFind_eq_none.2 hk] at h
  exact absurd h (by simp)

theorem rootEntry_mem_of_head {fs : NxFilesystem} {root : Node}
    (h : fs.entries.head? = some (rootEntry root)) : rootEntry root ∈ fs.entries := by
  cases hes : fs.entries with
  | nil => rw [hes] at h; exact absurd h (by simp)
  | cons a t =>
    rw [hes] at h
    simp only [List.head?_cons, Option.some.injEq] at h
    rw [h]
    exact List.mem_cons_self _ _

theorem nxnode_inj {fs : NxFilesystem} (hnd : (fs.entries.map Entry.nxnode).Nodup)
    {e1 e2 : Entry} (h1 : e1 ∈ fs.entries) (h2 : e2 ∈ fs.entries)
    (h : e1.nxnode = e2.nxnode) : e1 = e2 :=
  List.inj_on_of_nodup_map hnd h1 h2 h

/-- Appending a fresh entry with fresh inodes preserves the structural
invariant. -/
theorem invcore_snoc {fs : NxFilesystem} (h : InvCore fs) (n : Node)
    (inos : NodeInodes) (cnt : Nat)
    (hn : ∀ e ∈ fs.entries, e.nxnode ≠ n)
    (hblock : (inodeList inos).Nodup)
    (hlow : ∀ x ∈ inodeList inos, 2 ≤ x ∧ fs.inode_counter ≤ x ∧ x < cnt)
    (hcnt : fs.inode_counter ≤ cnt) :
    InvCore { fs with
      inode_counter := cnt,
      entries := fs.entries ++ [{ nxnode := n, inodes := inos }] } := by
  refine ⟨le_trans h.counter_ge hcnt, ?_, ?_, ?_⟩
  · simp only [List.map_append, List.map_cons, List.map_nil]
    rw [List.nodup_append]
    refine ⟨h.nodes_nodup, by simp, ?_⟩
    intro x hx hx2
    simp only [List.mem_singleton] at hx2
    obtain ⟨e, he, hem⟩ := List.mem_map.1 hx
    exact hn e he (by rw [hem, hx2])
  · simp only [allInodes_append]
    rw [List.nodup_append]
    refine ⟨h.inodes_nodup, by simpa [allInodes, inodeList] using hblock, ?_⟩
    intro x hx hx2
    have hx2b : x ∈ inodeList inos := by simpa [allInodes] using hx2
    rcases h.inodes_bound x hx with h1 | h1
    · have := (hlow x hx2b).1
      simp [FUSE_ROOT_ID] at h1
      omega
    · have := (hlow x hx2b).2.1
      omega
  · intro i hi
    rw [allInodes_append] at hi
    rcases List.mem_append.1 hi with hi | hi
    · rcases h.inodes_bound i hi with h1 | h1
      · exact Or.inl h1
      · exact Or.inr ⟨h1.1, lt_of_lt_of_le h1.2 hcnt⟩
    · have hib : i ∈ inodeList inos := by simpa [allInodes] using hi
      exact Or.inr ⟨(hlow i hib).1, (hlow i hib).2.2⟩

theorem ni_core {fs : NxFilesystem} (h : InvCore fs) (n : Node) :
    InvCore (node_inodes fs n).2 := by
  cases hf : entriesInodes fs.entries n with
  | some i => rw [ni_found hf]; exact h
  | none =>
    have hn := entriesInodes_none_iff.1 hf
    rw [ni_fresh hf]
    cases hc : shadow_cond n with
    | false =>
      simp only [hc, Bool.false_eq_true, if_false]
      refine invcore_snoc h n _ _ hn ?_ ?_ ?_
      · simp [inodeList]
      · intro x hx
        simp only [inodeList, Option.toList_none, List.mem_singleton] at hx
        subst hx
        exact ⟨h.counter_ge, le_rfl, by omega⟩
      · omega
    | true =>
      simp only [hc, if_true]
      refine invcore_snoc h n _ _ hn ?_ ?_ ?_
      · simp [inodeList]
      · intro x hx
        simp only [inodeList, Option.toList_some, List.mem_cons, List.mem_singleton] at hx
        rcases hx with hx | hx | hx
        · subst hx; exact ⟨h.counter_ge, le_rfl, by omega⟩
        · subst hx; exact ⟨by have := h.counter_ge; omega, by omega, by omega⟩
        · cases hx
      · omega

theorem entry_main_ne_one {root : Node} {now : Nat} {fs : NxFilesystem}
    (h : Inv root now fs) {e : Entry} (he : e ∈ fs.entries)
    (hne : e ≠ rootEntry root) : e.inodes.main ≠ FUSE_ROOT_ID :=
  fun h1 => hne (h.main_root e he h1)

theorem opt_ne_one {root : Node} {now : Nat} {fs : NxFilesystem}
    (h : Inv root now fs) {e : Entry} {io : Nat} (he : e ∈ fs.entries)
    (ho : e.inodes.opt_data = some io) : io ≠ FUSE_ROOT_ID := by
  intro h1
  have hroot : rootEntry root ∈ fs.entries := rootEntry_mem_of_head h.head_root
  have hio : io ∈ inodeList e.inodes := opt_mem_inodeList ho
  have h1m : io ∈ inodeList (rootEntry root).inodes := by
    rw [h1]
    exact main_mem_inodeList _
  have := entry_eq_of_shared_inode h.core.inodes_nodup he hroot hio h1m
  rw [this] at ho
  exact absurd ho (by simp [rootEntry])

theorem inv_snoc {root : Node} {now : Nat} {fs : NxFilesystem}
    (h : Inv root now fs) (n : Node) (inos : NodeInodes) (cnt : Nat)
    (hcore : InvCore { fs with
      inode_counter := cnt,
      entries := fs.entries ++ [{ nxnode := n, inodes := inos }] })
    (hsz : sizeOf n ≤ sizeOf root)
    (hmain2 : 2 ≤ inos.main)
    (hmainK : fs.inode_counter ≤ inos.main)
    (hopt : ∀ io, inos.opt_data = some io → fs.inode_counter ≤ io)
    (hshadow : inos.opt_data.isSome = shadow_cond n)
    (hcnt : fs.inode_counter ≤ cnt) :
    Inv root now { fs with
      inode_counter := cnt,
      entries := fs.entries ++ [{ nxnode := n, inodes := inos }] } := by
  have hnew_ne_root : ({ nxnode := n, inodes := inos } : Entry) ≠ rootEntry root := by
    intro hE
    have : inos.main = FUSE_ROOT_ID := by
      rw [show inos = ({ nxnode := n, inodes := inos } : Entry).inodes from rfl, hE]
      rfl
    simp [FUSE_ROOT_ID] at this
    omega
  refine ⟨hcore, h.time_eq, ?_, ?_, ?_, ?_, h.attr_root, h.attr_keys_nodup, ?_, ?_, ?_⟩
  · cases hes : fs.entries with
    | nil =>
      have hh := h.head_root
      rw [hes] at hh
      exact absurd hh (by simp)
    | cons a t =>
      have hh := h.head_root
      rw [hes] at hh
      simp only [List.head?_cons, Option.some.injEq] at hh
      simp [hes, hh]
  · intro e he h1
    rcases List.mem_append.1 he with he | he
    · exact h.main_root e he h1
    · rcases List.mem_singleton.1 he with rfl
      simp only at h1
      unfold FUSE_ROOT_ID at h1
      omega
  · intro e he hne
    rcases List.mem_append.1 he with he | he
    · exact h.shadow_law e he hne
    · rcases List.mem_singleton.1 he with rfl
      exact hshadow
  · intro e he
    rcases List.mem_append.1 he with he | he
    · exact h.size_le e he
    · rcases List.mem_singleton.1 he with rfl
      exact hsz
  · intro k hk
    exact lt_of_lt_of_le (h.attr_keys_lt k hk) hcnt
  · intro e he hne a ha
    rcases List.mem_append.1 he with he | he
    · exact h.attr_main e he hne a ha
    · rcases List.mem_singleton.1 he with rfl
      have hk := assocFind_some_mem_keys ha
      have := h.attr_keys_lt _ hk
      simp only at this
      omega
  · intro e he io hio a ha
    rcases List.mem_append.1 he with he | he
    · exact h.attr_shadow e he io hio a ha
    · rcases List.mem_singleton.1 he with rfl
      have hk := assocFind_some_mem_keys ha
      have h1 := h.attr_keys_lt _ hk
      have h2 := hopt io hio
      simp only at h1
      omega

theorem ni_inv {root : Node} {now : Nat} {fs : NxFilesystem} {n : Node}
    (h : Inv root now fs) (hsz : sizeOf n ≤ sizeOf root) :
    Inv root now (node_inodes fs n).2 := by
  have hcore := ni_core h.core n
  cases hf : entriesInodes fs.entries n with
  | some i => rw [ni_found hf]; exact h
  | none =>
    rw [ni_fresh hf] at hcore ⊢
    cases hc : shadow_cond n with
    | false =>
      simp only [hc, Bool.false_eq_true, if_false] at hcore ⊢
      refine inv_snoc h n _ _ hcore hsz h.core.counter_ge le_rfl ?_ ?_ (by omega)
      · intro io hio; exact absurd hio (by simp)
      · simp [hc]
    | true =>
      simp only [hc, if_true] at hcore ⊢
      refine inv_snoc h n _ _ hcore hsz h.core.counter_ge le_rfl ?_ ?_ (by omega)
      · intro io hio
        simp only [Option.some.injEq] at hio
        omega
      · simp [hc]

theorem inv_insert_main {root : Node} {now : Nat} {fs : NxFilesystem}
    (h : Inv root now fs) {e : Entry} (he : e ∈ fs.entries)
    (hne : e ≠ rootEntry root)
    (hv : assocFind fs.inode_attrs e.inodes.main = none) :
    Inv root now { fs with
      inode_attrs :=
        (e.inodes.main, mainAttrOf now e.inodes.main e.nxnode) :: fs.inode_attrs } := by
  have hm1 : e.inodes.main ≠ FUSE_ROOT_ID := entry_main_ne_one h he hne
  have hmem : e.inodes.main ∈ allInodes fs.entries :=
    mem_allInodes_of_mem he (main_mem_inodeList _)
  refine ⟨⟨h.core.counter_ge, h.core.nodes_nodup, h.core.inodes_nodup,
      h.core.inodes_bound⟩, h.time_eq, h.head_root, h.main_root, h.shadow_law,
    h.size_le, ?_, ?_, ?_, ?_, ?_⟩
  · rw [assocFind_insert_other hm1]
    exact h.attr_root
  · simp only [List.map_cons]
    rw [List.nodup_cons]
    exact ⟨assocFind_eq_none.1 hv, h.attr_keys_nodup⟩
  · intro k hk
    simp only [List.map_cons, List.mem_cons] at hk
    rcases hk with hk | hk
    · subst hk
      rcases h.core.inodes_bound _ hmem with h1 | h1
      · exact absurd h1 hm1
      · exact h1.2
    · exact h.attr_keys_lt k hk
  · intro e2 he2 hne2 a ha
    by_cases hk : e.inodes.main = e2.inodes.main
    · have hee : e = e2 :=
        entry_eq_of_shared_inode h.core.inodes_nodup he he2
          (main_mem_inodeList _) (by rw [hk]; exact main_mem_inodeList _)
      subst hee
      rw [assocFind_insert_self] at ha
      exact (Option.some_inj.1 ha).symm
    · rw [assocFind_insert_other hk] at ha
      exact h.attr_main e2 he2 hne2 a ha
  · intro e2 he2 io hio a ha
    by_cases hk : e.inodes.main = io
    · have hee : e = e2 :=
        entry_eq_of_shared_inode h.core.inodes_nodup he he2
          (by rw [← hk]; exact main_mem_inodeList _) (opt_mem_inodeList hio)
      have hnm : io ≠ e2.inodes.main :=
        opt_ne_main h.core.inodes_nodup he2 hio
      rw [hee] at hk
      exact absurd hk.symm hnm
    · rw [assocFind_insert_other hk] at ha
      exact h.attr_shadow e2 he2 io hio a ha

theorem inv_insert_shadow {root : Node} {now : Nat} {fs : NxFilesystem}
    (h : Inv root now fs) {e : Entry} {io : Nat} (he : e ∈ fs.entries)
    (ho : e.inodes.opt_data = some io)
    (hv : assocFind fs.inode_attrs io = none) :
    Inv root now { fs with
      inode_attrs := (io, shadowAttrOf now io e.nxnode) :: fs.inode_attrs } := by
  have h1 : io ≠ FUSE_ROOT_ID := opt_ne_one h he ho
  have hmem : io ∈ allInodes fs.entries :=
    mem_allInodes_of_mem he (opt_mem_inodeList ho)
  refine ⟨⟨h.core.counter_ge, h.core.nodes_nodup, h.core.inodes_nodup,
      h.core.inodes_bound⟩, h.time_eq, h.head_root, h.main_root, h.shadow_law,
    h.size_le, ?_, ?_, ?_, ?_, ?_⟩
  · rw [assocFind_insert_other h1]
    exact h.attr_root
  · simp only [List.map_cons]
    rw [List.nodup_cons]
    exact ⟨assocFind_eq_none.1 hv, h.attr_keys_nodup⟩
  · intro k hk
    simp only [List.map_cons, List.mem_cons] at hk
    rcases hk with hk | hk
    · subst hk
      rcases h.core.inodes_bound _ hmem with h2 | h2
      · exact absurd h2 h1
      · exact h2.2
    · exact h.attr_keys_lt k hk
  · intro e2 he2 hne2 a ha
    by_cases hk : io = e2.inodes.main
    · have hee : e = e2 :=
        entry_eq_of_shared_inode h.core.inodes_nodup he he2
          (opt_mem_inodeList ho) (by rw [hk]; exact main_mem_inodeList _)
      have hnm : io ≠ e.inodes.main :=
        opt_ne_main h.core.inodes_nodup he ho
      rw [← hee] at hk
      exact absurd hk hnm
    · rw [assocFind_insert_other hk] at ha
      exact h.attr_main e2 he2 hne2 a ha
  · intro e2 he2 io2 hio2 a ha
    by_cases hk : io = io2
    · subst hk
      have hee : e = e2 :=
        entry_eq_of_shared_inode h.core.inodes_nodup he he2
          (opt_mem_inodeList ho) (opt_mem_inodeList hio2)
      rw [assocFind_insert_self] at ha
      rw [← Option.some_inj.1 ha, ← hee]
    · rw [assocFind_insert_other hk] at ha
      exact h.attr_shadow e2 he2 io2 hio2 a ha

theorem nfa_inv {root : Node} {now : Nat} {fs : NxFilesystem} {n : Node}
    (h : Inv root now fs) (hsz : sizeOf n ≤ sizeOf root) :
    Inv root now (node_file_attrs fs n).2 := by
  have h1 : Inv root now (node_inodes fs n).2 := ni_inv h hsz
  obtain ⟨e, he, hen, hei⟩ := entriesInodes_mem (ni_registers fs n)
  rw [nfa_spec]
  simp only
  cases hm : assocFind (node_inodes fs n).2.inode_attrs (node_inodes fs n).1.main with
  | some a =>
    cases ho : (node_inodes fs n).1.opt_data with
    | none => exact h1
    | some io =>
      cases hs : assocFind (node_inodes fs n).2.inode_attrs io with
      | some b => simp only [hs]; exact h1
      | none =>
        simp only [hs]
        have h2 := inv_insert_shadow h1 he (by rw [hei]; exact ho) hs
        rw [hen] at h2
        rw [h1.time_eq] at h2 ⊢
        exact h2
  | none =>
    have hne : e ≠ rootEntry root := by
      intro hE
      have hmain1 : (node_inodes fs n).1.main = FUSE_ROOT_ID := by
        rw [← hei, hE]
        rfl
      rw [hmain1, h1.attr_root] at hm
      exact absurd hm (by simp)
    have hv : assocFind (node_inodes fs n).2.inode_attrs e.inodes.main = none := by
      rw [hei]; exact hm
    have h2 := inv_insert_main h1 he hne hv
    rw [hen, hei] at h2
    cases ho : (node_inodes fs n).1.opt_data with
    | none =>
      rw [h1.time_eq] at h2 ⊢
      exact h2
    | some io =>
      cases hs : assocFind
          (((node_inodes fs n).1.main,
            mainAttrOf (node_inodes fs n).2.create_time (node_inodes fs n).1.main n)
            :: (node_inodes fs n).2.inode_attrs) io with
      | some b =>
        simp only [hs]
        rw [h1.time_eq] at h2 ⊢
        exact h2
      | none =>
        simp only [hs]
        rw [h1.time_eq] at hs
        have h3 := inv_insert_shadow h2 he (by rw [hei]; exact ho) hs
        rw [hen] at h3
        rw [h1.time_eq] at h3 ⊢
        exact h3

theorem lookup_fatalr {fs : NxFilesystem} {parent : Nat} {name : List String}
    {node : Node} {m : String} (hp : entriesNxnode fs.entries parent = some node)
    (hr : lookupResolve node false name = .fatal m) :
    lookup fs parent name = (.fatal m, fs) := by
  simp [lookup, hp, hr]

theorem lookupResolve_size :
    ∀ (comps : List String) (node : Node) (dr : Bool) {t : Node} {d : Bool},
      lookupResolve node dr comps = .ok (t, d) → sizeOf t ≤ sizeOf node := by
  intro comps
  induction comps with
  | nil =>
    intro node dr t d h
    simp only [lookupResolve, Reply.ok.injEq, Prod.mk.injEq] at h
    rw [← h.1]
  | cons nm rest ih =>
    intro node dr t d h
    cases hg : node.get nm with
    | some c =>
      simp only [lookupResolve, hg] at h
      exact le_trans (ih c dr h) (le_of_lt (Node.get_size hg))
    | none =>
      cases hr : strRfind nm "_data" with
      | none => simp [lookupResolve, hg, hr] at h
      | some pos =>
        cases hg2 : node.get (strTake nm pos) with
        | none => simp [lookupResolve, hg, hr, hg2] at h
        | some c =>
          simp only [lookupResolve, hg, hr, hg2] at h
          exact le_trans (ih c true h) (le_of_lt (Node.get_size hg2))

theorem inv_init (root : Node) (now : Nat) :
    Inv root now (new_with_nx_file root now) := by
  refine ⟨⟨le_rfl, by simp [new_with_nx_file], ?_, ?_⟩, rfl, rfl, ?_, ?_, ?_, ?_,
    ?_, ?_, ?_, ?_⟩
  · simp [new_with_nx_file, allInodes, inodeList, rootEntry]
  · intro i hi
    simp only [new_with_nx_file, allInodes, inodeList, rootEntry] at hi
    simp only [Option.toList_none, List.flatMap_cons, List.flatMap_nil,
      List.append_nil, List.mem_singleton] at hi
    exact Or.inl hi
  · intro e he h1
    simp only [new_with_nx_file, List.mem_singleton] at he
    exact he
  · intro e he hne
    simp only [new_with_nx_file, List.mem_singleton] at he
    exact absurd he hne
  · intro e he
    simp only [new_with_nx_file, List.mem_singleton] at he
    rw [he]
    exact le_rfl
  · simp [new_with_nx_file, assocFind, FUSE_ROOT_ID]
  · simp [new_with_nx_file]
  · intro k hk
    simp only [new_with_nx_file, List.map_cons, List.map_nil,
      List.mem_singleton] at hk
    rw [hk]
    simp [FUSE_ROOT_ID, new_with_nx_file]
  · intro e he hne a ha
    simp only [new_with_nx_file, List.mem_singleton] at he
    exact absurd he hne
  · intro e he io hio a ha
    simp only [new_with_nx_file, List.mem_singleton] at he
    rw [he] at hio
    exact absurd hio (by simp [rootEntry])

theorem readdirLoop_inv {root : Node} {now : Nat} :
    ∀ (cs : List Node) (fs : NxFilesystem) (i : Nat), Inv root now fs →
      (∀ c ∈ cs, sizeOf c ≤ sizeOf root) →
      Inv root now (readdirLoop fs i cs).2 := by
  intro cs
  induction cs with
  | nil => intro fs i h _; exact h
  | cons child rest ih =>
    intro fs i h hsz
    rw [readdirLoop_cons]
    have hc : sizeOf child ≤ sizeOf root := hsz child (List.mem_cons_self _ _)
    exact ih _ (i + 1) (nfa_inv (ni_inv h hc) hc)
      (fun c hcm => hsz c (List.mem_cons_of_mem _ hcm))

theorem step_inv {root : Node} {now : Nat} {fs fs' : NxFilesystem}
    (h : Inv root now fs) (hs : Step fs fs') : Inv root now fs' := by
  cases hs with
  | ofGetattr ino => rw [getattr_snd]; exact h
  | ofRead ino offset size => rw [read_snd]; exact h
  | ofLookup parent name =>
    cases hp : entriesNxnode fs.entries parent with
    | none => rw [lookup_noparent hp]; exact h
    | some p =>
      obtain ⟨e, he, hep, _⟩ := entriesNxnode_mem hp
      have hpsz : sizeOf p ≤ sizeOf root := by
        rw [← hep]
        exact h.size_le e he
      cases hr : lookupResolve p false name with
      | err er => rw [lookup_err hp hr]; exact h
      | fatal m => rw [lookup_fatalr hp hr]; exact h
      | ok pair =>
        obtain ⟨target, dr⟩ := pair
        have htsz : sizeOf target ≤ sizeOf root :=
          le_trans (lookupResolve_size name p false hr) hpsz
        cases dr with
        | false =>
          rw [lookup_ok_primary hp hr]
          exact nfa_inv h htsz
        | true =>
          cases ho : (node_file_attrs fs target).1.opt_data with
          | some a => rw [lookup_ok_data_some hp hr ho]; exact nfa_inv h htsz
          | none => rw [lookup_ok_data_none hp hr ho]; exact nfa_inv h htsz
  | ofReaddir ino offset =>
    by_cases hz : offset = 0
    · subst hz
      cases hp : entriesNxnode fs.entries ino with
      | none => simp only [readdir, if_pos rfl, hp]; exact h
      | some p =>
        rw [readdir_zero_found hp]
        obtain ⟨e, he, hep, _⟩ := entriesNxnode_mem hp
        have hpsz : sizeOf p ≤ sizeOf root := by
          rw [← hep]
          exact h.size_le e he
        refine readdirLoop_inv p.children fs 0 h ?_
        intro c hc
        exact le_trans (le_of_lt (sizeOf_lt_of_mem_children hc)) hpsz
    · simp only [readdir, if_neg hz]
      exact h

theorem reach_inv {root : Node} {now : Nat} {fs : NxFilesystem}
    (h : Reachable root now fs) : Inv root now fs := by
  unfold Reachable at h
  induction h with
  | refl => exact inv_init root now
  | tail h1 h2 ih => exact step_inv ih h2

/-! ## Claim C2: the shadow-existence law -/

/-- C2 (amended): for every registry entry other than the pre-registered root
entry, the shadow inode is `Some` iff the node has at least one child and a
non-Empty kind, and entries are only ever appended, never revisited.  The
root's entry, seeded at construction, always has shadow `none`, whatever the
root node's kind and children. -/
theorem shadow_law_amended (root : Node) (now : Nat) (fs : NxFilesystem)
    (h : Reachable root now fs) :
    (∀ e ∈ fs.entries, e.inodes.main ≠ FUSE_ROOT_ID →
      e.inodes.opt_data.isSome = shadow_cond e.nxnode) ∧
    (∀ e ∈ fs.entries, e.inodes.main = FUSE_ROOT_ID →
      e.nxnode = root ∧ e.inodes.opt_data = none) ∧
    (∀ fs', Step fs fs' → ∃ l, fs'.entries = fs.entries ++ l) := by
  have hI := reach_inv h
  refine ⟨?_, ?_, ?_⟩
  · intro e he hm
    have hne : e ≠ rootEntry root := fun hE => hm (by rw [hE]; rfl)
    exact hI.shadow_law e he hne
  · intro e he hm
    have hE := hI.main_root e he hm
    rw [hE]
    exact ⟨rfl, rfl⟩
  · intro fs' hs
    exact (step_extends hs).entries_ext

theorem shadow_law_amended_witness :
    (let root := Node.mk "" (NodeData.str "v") [Node.mk "c" NodeData.empty []]
     let fs := new_with_nx_file root 0
     Reachable root 0 fs ∧
     ((∀ e ∈ fs.entries, e.inodes.main ≠ FUSE_ROOT_ID →
        e.inodes.opt_data.isSome = shadow_cond e.nxnode) ∧
      (∀ e ∈ fs.entries, e.inodes.main = FUSE_ROOT_ID →
        e.nxnode = root ∧ e.inodes.opt_data = none) ∧
      (∀ fs', Step fs fs' → ∃ l, fs'.entries = fs.entries ++ l))) :=
  ⟨Relation.ReflTransGen.refl,
   shadow_law_amended (Node.mk "" (NodeData.str "v") [Node.mk "c" NodeData.empty []]) 0
     (new_with_nx_file (Node.mk "" (NodeData.str "v") [Node.mk "c" NodeData.empty []]) 0)
     Relation.ReflTransGen.refl⟩

/-- C2 counterexample: in the state constructed over a root that has a child
and a non-Empty kind, the root's own registry entry violates the claimed
law — its shadow inode is `none` although `kind != Empty` and it has a
child. -/
theorem shadow_law_counterexample :
    ((new_with_nx_file
        (Node.mk "" (NodeData.str "v") [Node.mk "c" NodeData.empty []]) 0).entries.all
      (fun e => e.inodes.opt_data.isSome == shadow_cond e.nxnode)) = false := by
  decide

/-! ## Claim C6: inode numbers are a strict bijection -/

/-- C6: in every reachable state the registered inode numbers are pairwise
distinct, every number is the root id or lies in `[root+1, counter)`, any
further operation only grows the counter and the registered set, and for two
distinct nodes the registered inode records (primary and shadow) after
consecutive `node_inodes` calls share no number. -/
theorem inode_bijection (root : Node) (now : Nat) (fs : NxFilesystem)
    (h : Reachable root now fs) (n1 n2 : Node) (hne : n1 ≠ n2) :
    (allInodes fs.entries).Nodup ∧
    (∀ i ∈ allInodes fs.entries,
      i = FUSE_ROOT_ID ∨ (FUSE_ROOT_ID + 1 ≤ i ∧ i < fs.inode_counter)) ∧
    (∀ fs', Step fs fs' → fs.inode_counter ≤ fs'.inode_counter ∧
      ∀ i ∈ allInodes fs.entries, i ∈ allInodes fs'.entries) ∧
    (inodeList (node_inodes fs n1).1 ++
      inodeList (node_inodes (node_inodes fs n1).2 n2).1).Nodup := by
  have hI := reach_inv h
  refine ⟨hI.core.inodes_nodup, ?_, ?_, ?_⟩
  · intro i hi
    rcases hI.core.inodes_bound i hi with h1 | h1
    · exact Or.inl h1
    · refine Or.inr ⟨?_, h1.2⟩
      unfold FUSE_ROOT_ID
      omega
  · intro fs' hs
    exact ⟨(step_extends hs).counter_mono,
      fun i hi => (step_extends hs).allInodes_mono hi⟩
  · have hc1 : InvCore (node_inodes fs n1).2 := ni_core hI.core n1
    have hc2 : InvCore (node_inodes (node_inodes fs n1).2 n2).2 :=
      ni_core hc1 n2
    obtain ⟨e1, he1, he1n, he1i⟩ := entriesInodes_mem (ni_registers fs n1)
    obtain ⟨e2, he2, he2n, he2i⟩ :=
      entriesInodes_mem (ni_registers (node_inodes fs n1).2 n2)
    have he1B : e1 ∈ (node_inodes (node_inodes fs n1).2 n2).2.entries :=
      (ni_extends (node_inodes fs n1).2 n2).mem_entries he1
    rw [List.nodup_append]
    refine ⟨?_, ?_, ?_⟩
    · rw [← he1i]
      exact inodeList_nodup_of_mem hc2.inodes_nodup he1B
    · rw [← he2i]
      exact inodeList_nodup_of_mem hc2.inodes_nodup he2
    · intro x hx1 hx2
      rw [← he1i] at hx1
      rw [← he2i] at hx2
      have hee := entry_eq_of_shared_inode hc2.inodes_nodup he1B he2 hx1 hx2
      rw [hee] at he1n
      exact hne (by rw [← he1n, he2n])

theorem inode_bijection_witness :
    (let root := Node.mk "" NodeData.empty
       [Node.mk "a" (NodeData.str "v") [Node.mk "k" NodeData.empty []],
        Node.mk "b" NodeData.empty []]
     let fs := new_with_nx_file root 0
     let n1 := Node.mk "a" (NodeData.str "v") [Node.mk "k" NodeData.empty []]
     let n2 := Node.mk "b" NodeData.empty []
     Reachable root 0 fs ∧ n1 ≠ n2 ∧
     ((allInodes fs.entries).Nodup ∧
      (∀ i ∈ allInodes fs.entries,
        i = FUSE_ROOT_ID ∨ (FUSE_ROOT_ID + 1 ≤ i ∧ i < fs.inode_counter)) ∧
      (∀ fs', Step fs fs' → fs.inode_counter ≤ fs'.inode_counter ∧
        ∀ i ∈ allInodes fs.entries, i ∈ allInodes fs'.entries) ∧
      (inodeList (node_inodes fs n1).1 ++
        inodeList (node_inodes (node_inodes fs n1).2 n2).1).Nodup)) :=
  ⟨Relation.ReflTransGen.refl, by decide,
   inode_bijection _ 0 _ Relation.ReflTransGen.refl
     (Node.mk "a" (NodeData.str "v") [Node.mk "k" NodeData.empty []])
     (Node.mk "b" NodeData.empty []) (by decide)⟩

theorem ni_attrs (fs : NxFilesystem) (n : Node) :
    (node_inodes fs n).2.inode_attrs = fs.inode_attrs := by
  cases hf : entriesInodes fs.entries n with
  | some i => rw [ni_found hf]
  | none => rw [ni_fresh hf]

theorem ni_time (fs : NxFilesystem) (n : Node) :
    (node_inodes fs n).2.create_time = fs.create_time := by
  cases hf : entriesInodes fs.entries n with
  | some i => rw [ni_found hf]
  | none => rw [ni_fresh hf]

/-- The registered entry of a node, when `node_inodes` finds one, determines
the node and inodes of the result. -/
theorem ni_entry_of_found {fs : NxFilesystem} {n : Node} {i : NodeInodes}
    (hf : entriesInodes fs.entries n = some i) :
    ∃ e ∈ fs.entries, e.nxnode = n ∧ e.inodes = i :=
  (entriesInodes_mem hf).imp (fun _ he => ⟨he.1, he.2.1, he.2.2⟩)

theorem ni_fresh_main {fs : NxFilesystem} {n : Node}
    (hf : entriesInodes fs.entries n = none) :
    (node_inodes fs n).1.main = fs.inode_counter := by
  rw [ni_fresh hf]

theorem ni_fresh_opt {fs : NxFilesystem} {n : Node}
    (hf : entriesInodes fs.entries n = none) :
    (node_inodes fs n).1.opt_data =
      if shadow_cond n then some (fs.inode_counter + 1) else none := by
  rw [ni_fresh hf]

/-- The primary attribute record produced by `node_file_attrs` for any node
other than the root: size is the materialized content length, kind follows
the child count, timestamps are the construction clock. -/
theorem nfa_main_spec {root : Node} {now : Nat} {fs : NxFilesystem} {n : Node}
    (hI : Inv root now fs) (hn : n ≠ root) :
    (node_file_attrs fs n).1.main =
      mainAttrOf now (node_inodes fs n).1.main n := by
  rw [nfa_spec]
  simp only
  rw [ni_attrs]
  cases hm : assocFind fs.inode_attrs (node_inodes fs n).1.main with
  | some a =>
    cases hf : entriesInodes fs.entries n with
    | some i =>
      obtain ⟨e, he, hen, hei⟩ := ni_entry_of_found hf
      have hne : e ≠ rootEntry root := by
        intro hE
        rw [hE] at hen
        exact hn (by rw [← hen]; rfl)
      have hmain : e.inodes.main = (node_inodes fs n).1.main := by
        rw [hei, ni_found hf]
      have := hI.attr_main e he hne a (by rw [hmain]; exact hm)
      rw [this, hmain, hen]
    | none =>
      have hmain := ni_fresh_main hf
      rw [hmain] at hm
      have hk := assocFind_some_mem_keys hm
      have := hI.attr_keys_lt _ hk
      omega
  | none =>
    rw [ni_time, hI.time_eq]

/-- The shadow attribute record produced by `node_file_attrs` whenever the
node owns a shadow inode: same size as the primary record, regular-file
kind. -/
theorem nfa_shadow_spec {root : Node} {now : Nat} {fs : NxFilesystem}
    {n : Node} {io : Nat} (hI : Inv root now fs)
    (ho : (node_inodes fs n).1.opt_data = some io) :
    (node_file_attrs fs n).1.opt_data = some (shadowAttrOf now io n) := by
  rw [nfa_spec]
  simp only [ho]
  rw [ni_attrs, ni_time]
  cases hf : entriesInodes fs.entries n with
  | some i =>
    obtain ⟨e, he, hen, hei⟩ := ni_entry_of_found hf
    have hoe : e.inodes.opt_data = some io := by
      have h2 := ho
      rw [ni_found hf] at h2
      rw [hei]
      exact h2
    have hiomain : io ≠ e.inodes.main := opt_ne_main hI.core.inodes_nodup he hoe
    have hmaine : e.inodes.main = (node_inodes fs n).1.main := by
      rw [hei, ni_found hf]
    cases hm : assocFind fs.inode_attrs (node_inodes fs n).1.main with
    | some a =>
      cases hs : assocFind fs.inode_attrs io with
      | some b =>
        have := hI.attr_shadow e he io hoe b hs
        rw [this, hen]
      | none =>
        rw [hI.time_eq]
    | none =>
      rw [assocFind_insert_other (by rw [← hmaine]; exact fun hx => hiomain hx.symm)]
      cases hs : assocFind fs.inode_attrs io with
      | some b =>
        have := hI.attr_shadow e he io hoe b hs
        rw [this, hen]
      | none =>
        rw [hI.time_eq]
  | none =>
    have hio : io = fs.inode_counter + 1 := by
      have := ni_fresh_opt hf
      rw [ho] at this
      cases hc : shadow_cond n with
      | false => rw [hc] at this; simp at this
      | true => rw [hc] at this; simp at this; omega
    have hmain := ni_fresh_main hf
    cases hm : assocFind fs.inode_attrs (node_inodes fs n).1.main with
    | some a =>
      rw [hmain] at hm
      have hk := assocFind_some_mem_keys hm
      have := hI.attr_keys_lt _ hk
      omega
    | none =>
      have hionotin : assocFind fs.inode_attrs io = none := by
        rw [assocFind_eq_none]
        intro hk
        have := hI.attr_keys_lt _ hk
        omega
      rw [assocFind_insert_other (by rw [hmain]; omega), hionotin]
      rw [hI.time_eq]

/-- For a non-root node, the shadow inode registered by `node_inodes` exists
exactly under the source's dual-presentation condition. -/
theorem ni_opt_iff {root : Node} {now : Nat} {fs : NxFilesystem} {n : Node}
    (hI : Inv root now fs) (hn : n ≠ root) :
    (node_inodes fs n).1.opt_data.isSome = shadow_cond n := by
  cases hf : entriesInodes fs.entries n with
  | some i =>
    obtain ⟨e, he, hen, hei⟩ := ni_entry_of_found hf
    have hne : e ≠ rootEntry root := by
      intro hE
      rw [hE] at hen
      exact hn (by rw [← hen]; rfl)
    have := hI.shadow_law e he hne
    rw [hen] at this
    rw [ni_found hf, ← this, hei]
  | none =>
    rw [ni_fresh_opt hf]
    cases hc : shadow_cond n <;> simp [hc]

/-! ## Claim C5: first-call attribute records -/

/-- C5 (amended): for every archive node other than the pre-attributed root,
the primary attribute record returned by `node_file_attrs` has size equal to
the length of the materializer's output and kind Directory exactly when the
node has a child (RegularFile otherwise); when a shadow record exists it has
the same size and always RegularFile kind.  The root is excluded: its record
is fixed at construction with size 0 and kind Directory regardless of its
value and children. -/
theorem attrs_first_call_amended (root : Node) (now : Nat) (fs : NxFilesystem)
    (h : Reachable root now fs) (n : Node) (hn : n ≠ root) :
    (node_file_attrs fs n).1.main.size = (nodeContent n).length ∧
    ((node_file_attrs fs n).1.main.kind = FileType.directory ↔
      node_has_children n = true) ∧
    (∀ a, (node_file_attrs fs n).1.opt_data = some a →
      a.size = (node_file_attrs fs n).1.main.size ∧
      a.kind = FileType.regularFile) := by
  have hI := reach_inv h
  have hmain := nfa_main_spec hI hn
  refine ⟨by rw [hmain]; rfl, ?_, ?_⟩
  · rw [hmain]
    simp only [mainAttrOf, node_file_type]
    cases hb : node_has_children n <;> simp [hb]
  · intro a ha
    cases ho : (node_inodes fs n).1.opt_data with
    | none =>
      rw [nfa_opt_none ho] at ha
      exact absurd ha (by simp)
    | some io =>
      rw [nfa_shadow_spec hI ho] at ha
      rw [← Option.some_inj.1 ha, hmain]
      exact ⟨rfl, rfl⟩

theorem attrs_first_call_amended_witness :
    (let root := Node.mk "" NodeData.empty
       [Node.mk "a" (NodeData.str "v") [Node.mk "k" NodeData.empty []]]
     let fs := new_with_nx_file root 0
     let n := Node.mk "a" (NodeData.str "v") [Node.mk "k" NodeData.empty []]
     Reachable root 0 fs ∧ n ≠ root ∧
     ((node_file_attrs fs n).1.main.size = (nodeContent n).length ∧
      ((node_file_attrs fs n).1.main.kind = FileType.directory ↔
        node_has_children n = true) ∧
      (∀ a, (node_file_attrs fs n).1.opt_data = some a →
        a.size = (node_file_attrs fs n).1.main.size ∧
        a.kind = FileType.regularFile))) :=
  ⟨Relation.ReflTransGen.refl, by decide,
   attrs_first_call_amended _ 0 _ Relation.ReflTransGen.refl
     (Node.mk "a" (NodeData.str "v") [Node.mk "k" NodeData.empty []]) (by decide)⟩

/-- C5 counterexample: over a root that is a childless String node, the
engine's record for the root (the one `node_file_attrs` returns on its first
call) has size 0 and kind Directory, although the materializer's output has
length 2 and the node has no children — contradicting the claim for the
pre-attributed root. -/
theorem attrs_root_counterexample :
    (node_file_attrs (new_with_nx_file (Node.mk "" (NodeData.str "hi") []) 0)
        (Node.mk "" (NodeData.str "hi") [])).1.main.size = 0 ∧
    (nodeContent (Node.mk "" (NodeData.str "hi") [])).length = 2 ∧
    (node_file_attrs (new_with_nx_file (Node.mk "" (NodeData.str "hi") []) 0)
        (Node.mk "" (NodeData.str "hi") [])).1.main.kind = FileType.directory ∧
    node_has_children (Node.mk "" (NodeData.str "hi") []) = false := by
  decide

/-! ## Claim C1: lookup name resolution -/

/-- C1 (amended): for a single-component `lookup(parent, name)` on a
registered parent: an exact child-name match replies that child's primary
record.  Otherwise, if `"_data"` occurs anywhere in the name (the source uses
`rfind`, not a suffix test) and the prefix before the last occurrence matches
a child, the reply is that child's shadow record when the child has a shadow
inode, and a fatal abort (an `unwrap` panic, not a not-found error) when it
has none.  In all remaining cases the reply is the not-found error. -/
theorem lookup_resolution_amended (root : Node) (now : Nat) (fs : NxFilesystem)
    (h : Reachable root now fs) (parent : Nat) (p : Node)
    (hp : entriesNxnode fs.entries parent = some p) (s : String) :
    (∀ c, p.get s = some c →
      (lookup fs parent [s]).1 = Reply.ok (node_file_attrs fs c).1.main) ∧
    (p.get s = none → strRfind s "_data" = none →
      (lookup fs parent [s]).1 = Reply.err ENOENT) ∧
    (∀ pos, p.get s = none → strRfind s "_data" = some pos →
      p.get (strTake s pos) = none →
      (lookup fs parent [s]).1 = Reply.err ENOENT) ∧
    (∀ pos c, p.get s = none → strRfind s "_data" = some pos →
      p.get (strTake s pos) = some c →
      (shadow_cond c = true →
        ∃ a, (node_file_attrs fs c).1.opt_data = some a ∧
          (lookup fs parent [s]).1 = Reply.ok a) ∧
      (shadow_cond c = false →
        (lookup fs parent [s]).1 =
          Reply.fatal "called Option::unwrap() on a None value")) := by
  have hI := reach_inv h
  refine ⟨?_, ?_, ?_, ?_⟩
  · intro c hc
    have hres : lookupResolve p false [s] = .ok (c, false) := by
      simp [lookupResolve, hc]
    rw [lookup_ok_primary hp hres]
  · intro hc hr
    have hres : lookupResolve p false [s] = .err ENOENT := by
      simp [lookupResolve, hc, hr]
    rw [lookup_err hp hres]
  · intro pos hc hr hc2
    have hres : lookupResolve p false [s] = .err ENOENT := by
      simp [lookupResolve, hc, hr, hc2]
    rw [lookup_err hp hres]
  · intro pos c hc hr hc2
    have hres : lookupResolve p false [s] = .ok (c, true) := by
      simp [lookupResolve, hc, hr, hc2]
    obtain ⟨e, he, hep, _⟩ := entriesNxnode_mem hp
    have hpsz : sizeOf p ≤ sizeOf root := by
      rw [← hep]
      exact hI.size_le e he
    have hcroot : c ≠ root := by
      intro hE
      have := lt_of_lt_of_le (Node.get_size hc2) hpsz
      rw [hE] at this
      exact lt_irrefl _ this
    constructor
    · intro hsc
      have hiso : (node_inodes fs c).1.opt_data.isSome = true := by
        rw [ni_opt_iff hI hcroot, hsc]
      obtain ⟨io, hio⟩ := Option.isSome_iff_exists.1 hiso
      have ha := nfa_shadow_spec hI hio
      exact ⟨shadowAttrOf now io c, ha, by rw [lookup_ok_data_some hp hres ha]⟩
    · intro hsc
      have hiso : (node_inodes fs c).1.opt_data = none := by
        rw [← Option.not_isSome_iff_eq_none]
        rw [ni_opt_iff hI hcroot, hsc]
        simp
      rw [lookup_ok_data_none hp hres (nfa_opt_none hiso)]

theorem lookup_resolution_amended_witness :
    (let root := Node.mk "" NodeData.empty
       [Node.mk "a" (NodeData.str "x") [Node.mk "k" NodeData.empty []]]
     let fs := new_with_nx_file root 0
     Reachable root 0 fs ∧ entriesNxnode fs.entries 1 = some root ∧
     (lookup fs 1 ["a"]).1 =
       Reply.ok (node_file_attrs fs
         (Node.mk "a" (NodeData.str "x") [Node.mk "k" NodeData.empty []])).1.main ∧
     (lookup fs 1 ["zz"]).1 = Reply.err ENOENT) := by
  refine ⟨Relation.ReflTransGen.refl, by decide, ?_, ?_⟩
  · exact (lookup_resolution_amended _ 0 _ Relation.ReflTransGen.refl 1
      (Node.mk "" NodeData.empty
        [Node.mk "a" (NodeData.str "x") [Node.mk "k" NodeData.empty []]])
      (by decide) "a").1 _ (by decide)
  · exact (lookup_resolution_amended _ 0 _ Relation.ReflTransGen.refl 1
      (Node.mk "" NodeData.empty
        [Node.mk "a" (NodeData.str "x") [Node.mk "k" NodeData.empty []]])
      (by decide) "zz").2.1 (by decide) (by decide)

/-- C1 counterexample, refuting the claim as stated at two concrete inputs:
(1) `lookup(root, "foo_data")` where child `foo` has no shadow inode ends in
a fatal `unwrap` abort, not the claimed not-found error; (2)
`lookup(root, "foo_datax")`, whose name does not end in `"_data"`, still
replies child `foo`'s shadow record (the source strips at the last `rfind`
occurrence), not the claimed not-found error. -/
theorem lookup_shadow_counterexample :
    (lookup (new_with_nx_file
        (Node.mk "" NodeData.empty [Node.mk "foo" (NodeData.integer 5) []]) 0)
      1 ["foo_data"]).1 =
      Reply.fatal "called Option::unwrap() on a None value" ∧
    (lookup (new_with_nx_file
        (Node.mk "" NodeData.empty
          [Node.mk "foo" (NodeData.str "v") [Node.mk "c" NodeData.empty []]]) 0)
      1 ["foo_datax"]).1 =
      Reply.ok (shadowAttrOf 0 3
        (Node.mk "foo" (NodeData.str "v") [Node.mk "c" NodeData.empty []])) := by
  decide

/-! ## Claim C3: readdir listings -/

theorem head_mem_of_head?_eq {α : Type} {l : List α} {y : α}
    (h : l.head? = some y) : y ∈ l := by
  cases l with
  | nil => exact absurd h (by simp)
  | cons a t =>
    simp only [List.head?_cons, Option.some.injEq] at h
    rw [← h]
    exact List.mem_cons_self _ _

theorem listingSpec_cookie_lb :
    ∀ (cs : List Node) (i x : Nat),
      x ∈ (listingSpec i cs).map (fun t => t.2.1) → i + 1 ≤ x := by
  intro cs
  induction cs with
  | nil => intro i x hx; simp [listingSpec] at hx
  | cons c rest ih =>
    intro i x hx
    simp only [listingSpec, List.map_cons, List.map_append, List.mem_cons,
      List.mem_append] at hx
    rcases hx with hx | hx | hx
    · omega
    · cases hc : shadow_cond c with
      | false => rw [hc] at hx; simp at hx
      | true => rw [hc] at hx; simp at hx; omega
    · have := ih (i + 1) x hx
      omega

theorem listingSpec_cookie_chain :
    ∀ (cs : List Node) (i : Nat),
      List.Chain' (fun a b => a ≤ b)
        ((listingSpec i cs).map (fun t => t.2.1)) := by
  intro cs
  induction cs with
  | nil => intro i; simp [listingSpec]
  | cons c rest ih =>
    intro i
    simp only [listingSpec, List.map_cons, List.map_append]
    cases hc : shadow_cond c with
    | true =>
      simp only [hc, if_true, List.map_cons, List.map_nil, List.nil_append,
        List.singleton_append]
      rw [List.chain'_cons]
      refine ⟨by omega, ?_⟩
      rw [List.chain'_cons']
      refine ⟨?_, ih (i + 1)⟩
      intro y hy
      have hym : y ∈ (listingSpec (i + 1) rest).map (fun t => t.2.1) :=
        head_mem_of_head?_eq hy
      have := listingSpec_cookie_lb rest (i + 1) y hym
      omega
    | false =>
      simp only [hc, Bool.false_eq_true, if_false, List.map_nil,
        List.nil_append]
      rw [List.chain'_cons']
      refine ⟨?_, ih (i + 1)⟩
      intro y hy
      have hym : y ∈ (listingSpec (i + 1) rest).map (fun t => t.2.1) :=
        head_mem_of_head?_eq hy
      have := listingSpec_cookie_lb rest (i + 1) y hym
      omega

theorem readdirLoop_spec {root : Node} {now : Nat} :
    ∀ (cs : List Node) (fs : NxFilesystem) (i : Nat), Inv root now fs →
      (∀ c ∈ cs, sizeOf c < sizeOf root) →
      ((readdirLoop fs i cs).1.map (fun d => (d.name, d.cookie, d.kind)) =
        listingSpec i cs ∧
       ∀ d ∈ (readdirLoop fs i cs).1,
         d.ino ∈ allInodes (readdirLoop fs i cs).2.entries) := by
  intro cs
  induction cs with
  | nil =>
    intro fs i h hsz
    exact ⟨rfl, by intro d hd; cases hd⟩
  | cons child rest ih =>
    intro fs i h hsz
    have hcsz := hsz child (List.mem_cons_self _ _)
    have hcroot : child ≠ root := by
      intro hE
      rw [hE] at hcsz
      exact lt_irrefl _ hcsz
    have h1 : Inv root now (node_inodes fs child).2 := ni_inv h (le_of_lt hcsz)
    have h2 : Inv root now (node_file_attrs (node_inodes fs child).2 child).2 :=
      nfa_inv h1 (le_of_lt hcsz)
    obtain ⟨ihmap, ihino⟩ :=
      ih (node_file_attrs (node_inodes fs child).2 child).2 (i + 1) h2
        (fun c hcm => hsz c (List.mem_cons_of_mem _ hcm))
    have hopt := ni_opt_iff h hcroot
    obtain ⟨e, he, hen, hei⟩ := ni_entry_of_found (ni_registers fs child)
    have hext : Extends (node_inodes fs child).2
        (readdirLoop (node_file_attrs (node_inodes fs child).2 child).2
          (i + 1) rest).2 :=
      Extends.trans (nfa_extends (node_inodes fs child).2 child)
        (readdirLoop_extends rest
          (node_file_attrs (node_inodes fs child).2 child).2 (i + 1))
    rw [readdirLoop_cons]
    constructor
    · cases hc : shadow_cond child with
      | true =>
        rw [hc] at hopt
        obtain ⟨io, hio⟩ := Option.isSome_iff_exists.1 hopt
        simp [listingSpec, hc, hio, ihmap]
      | false =>
        rw [hc] at hopt
        have hnone : (node_inodes fs child).1.opt_data = none :=
          Option.not_isSome_iff_eq_none.1 (by rw [hopt]; simp)
        simp [listingSpec, hc, hnone, ihmap]
    · intro d hd
      have hmain_mem : (node_inodes fs child).1.main ∈
          allInodes (node_inodes fs child).2.entries :=
        mem_allInodes_of_mem he (by rw [hei]; exact main_mem_inodeList _)
      cases ho : (node_inodes fs child).1.opt_data with
      | none =>
        simp only [ho, List.nil_append, List.mem_cons] at hd
        rcases hd with rfl | hd
        · exact hext.allInodes_mono hmain_mem
        · exact ihino d hd
      | some io =>
        simp only [ho, List.singleton_append, List.mem_cons] at hd
        rcases hd with rfl | rfl | hd
        · exact hext.allInodes_mono hmain_mem
        · refine hext.allInodes_mono
            (mem_allInodes_of_mem he ?_)
          rw [hei]
          exact opt_mem_inodeList ho
        · exact ihino d hd

/-- C3 (amended): `readdir(ino, 0)` on a registered inode replies ok with,
for each child in native order, a primary entry named the child's name and,
when the child owns a shadow inode, a further entry named the child's name
followed by `_data`; the cookie of the `i`-th child's primary entry is `i+1`
and of its shadow entry `i+2`, so the cookie stream is nondecreasing (but
not strictly increasing, see the counterexample); every emitted inode number
is registered after the call. -/
theorem readdir_listing_amended (root : Node) (now : Nat) (fs : NxFilesystem)
    (h : Reachable root now fs) (ino : Nat) (p : Node)
    (hp : entriesNxnode fs.entries ino = some p) :
    ∃ l, (readdir fs ino 0).1 = Reply.ok l ∧
      l.map (fun d => (d.name, d.cookie, d.kind)) = listingSpec 0 p.children ∧
      List.Chain' (fun a b => a ≤ b) (l.map DirEntry.cookie) ∧
      ∀ d ∈ l, d.ino ∈ allInodes (readdir fs ino 0).2.entries := by
  have hI := reach_inv h
  obtain ⟨e, he, hep, _⟩ := entriesNxnode_mem hp
  have hpsz : sizeOf p ≤ sizeOf root := by
    rw [← hep]
    exact hI.size_le e he
  have hcs : ∀ c ∈ p.children, sizeOf c < sizeOf root :=
    fun c hc => lt_of_lt_of_le (sizeOf_lt_of_mem_children hc) hpsz
  obtain ⟨hmap, hino⟩ := readdirLoop_spec p.children fs 0 hI hcs
  refine ⟨(readdirLoop fs 0 p.children).1, ?_, hmap, ?_, ?_⟩
  · rw [readdir_zero_found hp]
  · have hsel : (readdirLoop fs 0 p.children).1.map DirEntry.cookie =
        (listingSpec 0 p.children).map (fun t => t.2.1) := by
      rw [← hmap, List.map_map]
      rfl
    rw [hsel]
    exact listingSpec_cookie_chain p.children 0
  · intro d hd
    rw [readdir_zero_found hp]
    exact hino d hd

theorem readdir_listing_amended_witness :
    (let root := Node.mk "" NodeData.empty
       [Node.mk "a" (NodeData.str "v") [Node.mk "k" NodeData.empty []],
        Node.mk "b" NodeData.empty []]
     let fs := new_with_nx_file root 0
     Reachable root 0 fs ∧ entriesNxnode fs.entries 1 = some root ∧
     ∃ l, (readdir fs 1 0).1 = Reply.ok l ∧
       l.map (fun d => (d.name, d.cookie, d.kind)) = listingSpec 0 root.children ∧
       List.Chain' (fun a b => a ≤ b) (l.map DirEntry.cookie) ∧
       ∀ d ∈ l, d.ino ∈ allInodes (readdir fs 1 0).2.entries) :=
  ⟨Relation.ReflTransGen.refl, by decide,
   readdir_listing_amended _ 0 _ Relation.ReflTransGen.refl 1
     (Node.mk "" NodeData.empty
       [Node.mk "a" (NodeData.str "v") [Node.mk "k" NodeData.empty []],
        Node.mk "b" NodeData.empty []]) (by decide)⟩

/-- C3 counterexample: over a root with children `a` (which owns a shadow)
and `b`, the emitted cookie stream is `[1, 2, 2]` — the shadow of the first
child and the primary of the second child share cookie 2, so the stream is
not strictly increasing as claimed. -/
theorem readdir_cookie_counterexample :
    cookiesOf (readdir (new_with_nx_file
      (Node.mk "" NodeData.empty
        [Node.mk "a" (NodeData.str "v") [Node.mk "k" NodeData.empty []],
         Node.mk "b" NodeData.empty []]) 0) 1 0).1 = [1, 2, 2] ∧
    ¬ List.Chain' (fun a b : Nat => a < b) [1, 2, 2] := by
  constructor
  · decide
  · intro hch
    rw [List.chain'_cons, List.chain'_cons] at hch
    omega

/-! ## Claim C9: the bitmap container round-trips -/

theorem le32_recon (X : Nat) (hX : X < 4294967296) :
    X % 256 + 256 * (X / 256 % 256) + 65536 * (X / 65536 % 256) +
      16777216 * (X / 16777216 % 256) = X := by
  omega

theorem i32ofNat_small {w : Nat} (hw : w < 2147483648) :
    ((i32ofNat w) % 4294967296).toNat = w := by
  unfold i32ofNat
  rw [if_pos (by omega)]
  omega

theorem i32ofNat_neg_small {h : Nat} (hh0 : 0 < h) (hh : h < 2147483648) :
    ((-(i32ofNat h)) % 4294967296).toNat = 4294967296 - h := by
  unfold i32ofNat
  rw [if_pos (by omega)]
  omega

/-- C9: the materialized bitmap bytes form a self-describing single-frame
BMP of total length `122 + N`: the header encodes the actual file length,
pixel-data offset 122, width `w`, the two's complement of `h` (top-to-bottom
row order), the payload is the decoded pixel buffer verbatim, and a standard
reader decodes the container back to exactly `(w, h, buffer)`. -/
theorem bitmap_container_roundtrip (w h : Nat) (buf : List Nat)
    (hw : w < 2147483648) (hh0 : 0 < h) (hh : h < 2147483648)
    (hsz : 122 + buf.length < 4294967296) :
    (bmpData w h buf).length = 122 + buf.length ∧
    readLE32 (bmpData w h buf) 2 = 122 + buf.length ∧
    readLE32 (bmpData w h buf) 10 = 122 ∧
    readLE32 (bmpData w h buf) 18 = w ∧
    readLE32 (bmpData w h buf) 22 = 4294967296 - h ∧
    (bmpData w h buf).drop 122 = buf ∧
    (buf.length = 4 * w * h → bmpDecode (bmpData w h buf) = some (w, h, buf)) := by
  have hW := i32ofNat_small hw
  have hH := i32ofNat_neg_small hh0 hh
  have hlen : (bmpData w h buf).length = 122 + buf.length := by
    simp only [bmpData, le16, le32, be32, leI32, List.length_append,
      List.length_cons, List.length_nil, List.length_replicate]
    omega
  have h2e : readLE32 (bmpData w h buf) 2 =
      (122 + buf.length) % 256 + 256 * ((122 + buf.length) / 256 % 256) +
      65536 * ((122 + buf.length) / 65536 % 256) +
      16777216 * ((122 + buf.length) / 16777216 % 256) := rfl
  have h2 : readLE32 (bmpData w h buf) 2 = 122 + buf.length := by
    rw [h2e]
    exact le32_recon _ hsz
  have h10 : readLE32 (bmpData w h buf) 10 = 122 := rfl
  have h18e : readLE32 (bmpData w h buf) 18 =
      ((i32ofNat w) % 4294967296).toNat % 256 +
      256 * (((i32ofNat w) % 4294967296).toNat / 256 % 256) +
      65536 * (((i32ofNat w) % 4294967296).toNat / 65536 % 256) +
      16777216 * (((i32ofNat w) % 4294967296).toNat / 16777216 % 256) := rfl
  have h18 : readLE32 (bmpData w h buf) 18 = w := by
    rw [h18e, hW]
    exact le32_recon w (by omega)
  have h22e : readLE32 (bmpData w h buf) 22 =
      ((-(i32ofNat h)) % 4294967296).toNat % 256 +
      256 * (((-(i32ofNat h)) % 4294967296).toNat / 256 % 256) +
      65536 * (((-(i32ofNat h)) % 4294967296).toNat / 65536 % 256) +
      16777216 * (((-(i32ofNat h)) % 4294967296).toNat / 16777216 % 256) := rfl
  have h22 : readLE32 (bmpData w h buf) 22 = 4294967296 - h := by
    rw [h22e, hH]
    exact le32_recon _ (by omega)
  have hdrop : (bmpData w h buf).drop 122 = buf := rfl
  refine ⟨hlen, h2, h10, h18, h22, hdrop, ?_⟩
  intro hbl
  unfold bmpDecode
  rw [if_pos (show (bmpData w h buf).take 2 = [0x42, 0x4D] from rfl)]
  rw [if_pos (show readLE16 (bmpData w h buf) 26 = 1 ∧
      readLE16 (bmpData w h buf) 28 = 32 ∧
      readLE32 (bmpData w h buf) 30 = 3 ∧
      readLE32 (bmpData w h buf) 54 = 16711680 ∧
      readLE32 (bmpData w h buf) 58 = 65280 ∧
      readLE32 (bmpData w h buf) 62 = 255 ∧
      readLE32 (bmpData w h buf) 66 = 4278190080 from
    ⟨rfl, rfl, rfl, rfl, rfl, rfl, rfl⟩)]
  rw [h22, h18, h10, hdrop]
  rw [if_pos (show (2147483648 : Nat) ≤ 4294967296 - h by omega)]
  have hmag : 4294967296 - (4294967296 - h) = h := by omega
  rw [hmag, ← hbl, List.take_length]
  rw [if_pos rfl]

theorem bitmap_container_roundtrip_witness :
    (let buf := [0, 0, 255, 255, 0, 0, 255, 255, 0, 0, 255, 255, 0, 0, 255, 255]
     (2 : Nat) < 2147483648 ∧ (0 : Nat) < 2 ∧ 122 + buf.length < 4294967296 ∧
     buf.length = 4 * 2 * 2 ∧
     ((bmpData 2 2 buf).length = 122 + buf.length ∧
      readLE32 (bmpData 2 2 buf) 2 = 122 + buf.length ∧
      readLE32 (bmpData 2 2 buf) 10 = 122 ∧
      readLE32 (bmpData 2 2 buf) 18 = 2 ∧
      readLE32 (bmpData 2 2 buf) 22 = 4294967296 - 2 ∧
      (bmpData 2 2 buf).drop 122 = buf ∧
      bmpDecode (bmpData 2 2 buf) = some (2, 2, buf))) := by
  refine ⟨by decide, by decide, by decide, by decide, ?_⟩
  have hmain := bitmap_container_roundtrip 2 2
    [0, 0, 255, 255, 0, 0, 255, 255, 0, 0, 255, 255, 0, 0, 255, 255]
    (by decide) (by decide) (by decide) (by decide)
  exact ⟨hmain.1, hmain.2.1, hmain.2.2.1, hmain.2.2.2.1, hmain.2.2.2.2.1,
    hmain.2.2.2.2.2.1, hmain.2.2.2.2.2.2 (by decide)⟩

end NxFuse
